import Mathlib

/-!
# Verification of the huffman repository (Huffman + LZW codecs)

Shallow embedding of `src/huffman.py` and `src/lzw.py`.

Conventions of the embedding:
* Python `str` values are Lean `String`s; iterating a `str` yields its
  characters, modelled as `List Char`.
* Python `bytes` are `List Nat` with every element `< 256`.
* Python `dict`s are association lists (`List (κ × ν)`) with Python's
  insertion-order semantics: updating an existing key keeps its position,
  a new key is appended at the end.
* A Python function that can raise an uncaught exception is modelled as
  returning `Option`, with `none` for the raised exception.
* `heapq` is modelled exactly after CPython's `heapq.py` (`heapify`,
  `heappush`, `heappop` with `_siftup`/`_siftdown`), written with element
  swaps, which is extensionally the array CPython produces.
-/

set_option maxHeartbeats 1000000
set_option maxRecDepth 100000

namespace Huff

/-- Association-list lookup, i.e. Python `d[k]`-as-`Option` / `k in d`. -/
def assocGet {κ ν : Type} [DecidableEq κ] : List (κ × ν) → κ → Option ν
  | [], _ => none
  | (k', v) :: t, k => if k' = k then some v else assocGet t k

/-- Association-list store, i.e. Python `d[k] = v`: update in place if the key
exists (keeping its position), otherwise append at the end. -/
def assocSet {κ ν : Type} [DecidableEq κ] : List (κ × ν) → κ → ν → List (κ × ν)
  | [], k, v => [(k, v)]
  | (k', v') :: t, k, v => if k' = k then (k, v) :: t else (k', v') :: assocSet t k v

/-- One step of `collections.Counter`: add one occurrence of key `k`. -/
def bump : List (String × Int) → String → List (String × Int)
  | [], k => [(k, 1)]
  | (k', v) :: t, k => if k' = k then (k', v + 1) :: t else (k', v) :: bump t k

/-- `collections.Counter(text)`: symbol → occurrence count, keys in first
occurrence order (Python dict insertion order). Symbols are the one-character
strings Python iteration over `text` produces. -/
def counter (text : List Char) : List (String × Int) :=
  text.foldl (fun acc c => bump acc (String.singleton c)) []

theorem assocGet_eq_none {κ ν : Type} [DecidableEq κ] (l : List (κ × ν)) (k : κ) :
    assocGet l k = none ↔ k ∉ l.map Prod.fst := by
  induction l with
  | nil => simp [assocGet]
  | cons h t ih =>
    obtain ⟨k', v⟩ := h
    by_cases hk : k' = k
    · simp [assocGet, hk]
    · simp only [assocGet, if_neg hk, ih, List.map_cons, List.mem_cons]
      constructor
      · rintro hn (h1 | h1)
        · exact hk h1.symm
        · exact hn h1
      · exact fun hn h1 => hn (Or.inr h1)

theorem assocGet_mem {κ ν : Type} [DecidableEq κ] {l : List (κ × ν)} {k : κ} {v : ν}
    (h : assocGet l k = some v) : (k, v) ∈ l := by
  induction l with
  | nil => simp [assocGet] at h
  | cons hd t ih =>
    obtain ⟨k', v'⟩ := hd
    by_cases hk : k' = k
    · subst hk
      simp [assocGet] at h
      simp [h]
    · simp [assocGet, hk] at h
      exact List.mem_cons_of_mem _ (ih h)

theorem assocGet_isSome {κ ν : Type} [DecidableEq κ] (l : List (κ × ν)) (k : κ)
    (h : k ∈ l.map Prod.fst) : (assocGet l k).isSome := by
  cases hg : assocGet l k with
  | none => exact absurd ((assocGet_eq_none l k).1 hg) (by simpa using h)
  | some v => rfl

theorem assocGet_append_left {κ ν : Type} [DecidableEq κ] {l₁ : List (κ × ν)}
    (l₂ : List (κ × ν)) {k : κ} {v : ν} (h : assocGet l₁ k = some v) :
    assocGet (l₁ ++ l₂) k = some v := by
  induction l₁ with
  | nil => simp [assocGet] at h
  | cons hd t ih =>
    obtain ⟨k', v'⟩ := hd
    by_cases hk : k' = k <;> simp_all [assocGet, hk]

theorem assocGet_append_right {κ ν : Type} [DecidableEq κ] {l₁ : List (κ × ν)}
    (l₂ : List (κ × ν)) {k : κ} (h : assocGet l₁ k = none) :
    assocGet (l₁ ++ l₂) k = assocGet l₂ k := by
  induction l₁ with
  | nil => simp
  | cons hd t ih =>
    obtain ⟨k', v'⟩ := hd
    by_cases hk : k' = k <;> simp_all [assocGet, hk]

/-- On an association list with distinct keys, lookup of a present pair's key
returns that pair's value. -/
theorem assocGet_of_mem_nodup {κ ν : Type} [DecidableEq κ] {l : List (κ × ν)}
    (hnd : (l.map Prod.fst).Nodup) {k : κ} {v : ν} (h : (k, v) ∈ l) :
    assocGet l k = some v := by
  induction l with
  | nil => simp at h
  | cons hd t ih =>
    obtain ⟨k', v'⟩ := hd
    simp only [List.map_cons, List.nodup_cons] at hnd
    rcases List.mem_cons.1 h with h1 | h1
    · obtain ⟨rfl, rfl⟩ := Prod.mk.injEq .. ▸ h1
      simp [assocGet]
    · have hk : k' ≠ k := by
        rintro rfl
        exact hnd.1 (List.mem_map.2 ⟨(k', v), h1, rfl⟩)
      simp [assocGet, hk, ih hnd.2 h1]

/-- Swap the elements at positions `i` and `j` (identity when out of range).
Used to express CPython's sift loops extensionally. -/
def lswap {α : Type} (l : List α) (i j : Nat) : List α :=
  match l[i]?, l[j]? with
  | some x, some y => (l.set i y).set j x
  | _, _ => l

theorem lswap_length {α : Type} (l : List α) (i j : Nat) :
    (lswap l i j).length = l.length := by
  unfold lswap
  cases l[i]? <;> cases l[j]? <;> simp

theorem get_cons_set_perm {α : Type} :
    ∀ (l : List α) (k : Nat) (h : k < l.length) (x : α),
      List.Perm (l.get ⟨k, h⟩ :: l.set k x) (x :: l) := by
  intro l
  induction l with
  | nil => intro k h x; simp at h
  | cons a t ih =>
    intro k h x
    cases k with
    | zero => simpa using List.Perm.swap x a t
    | succ m =>
      have hm : m < t.length := by simpa using h
      refine ((List.Perm.swap a (t.get ⟨m, hm⟩) (t.set m x)).trans
        (((ih m hm x).cons a).trans (List.Perm.swap x a t)))

theorem set_set_perm {α : Type} :
    ∀ (l : List α) (i j : Nat) (hi : i < l.length) (hj : j < l.length),
      List.Perm ((l.set i (l.get ⟨j, hj⟩)).set j (l.get ⟨i, hi⟩)) l := by
  intro l
  induction l with
  | nil => intro i j hi; simp at hi
  | cons a t ih =>
    intro i j hi hj
    cases i with
    | zero =>
      cases j with
      | zero => simp
      | succ m =>
        have hm : m < t.length := by simpa using hj
        simpa using get_cons_set_perm t m hm a
    | succ n =>
      have hn : n < t.length := by simpa using hi
      cases j with
      | zero => simpa using get_cons_set_perm t n hn a
      | succ m =>
        have hm : m < t.length := by simpa using hj
        simpa using (ih n m hn hm).cons a

theorem lswap_perm {α : Type} (l : List α) (i j : Nat) : List.Perm (lswap l i j) l := by
  unfold lswap
  cases hi : l[i]? with
  | none => exact List.Perm.refl l
  | some x =>
    cases hj : l[j]? with
    | none => exact List.Perm.refl l
    | some y =>
      have hi' : i < l.length := by
        by_contra h
        rw [List.getElem?_eq_none (by omega)] at hi
        exact Option.noConfusion hi
      have hj' : j < l.length := by
        by_contra h
        rw [List.getElem?_eq_none (by omega)] at hj
        exact Option.noConfusion hj
      have hx : x = l.get ⟨i, hi'⟩ := by
        have h2 := List.getElem?_eq_getElem hi'
        rw [hi] at h2
        simpa using h2
      have hy : y = l.get ⟨j, hj'⟩ := by
        have h2 := List.getElem?_eq_getElem hj'
        rw [hj] at h2
        simpa using h2
      rw [hx, hy]
      exact set_set_perm l i j hi' hj'

/-- A node of the Huffman tree (`HuffmanNode` in `src/huffman.py`): a symbol
(`None` on internal nodes), a frequency, and optional children. -/
inductive HNode : Type where
  | mk (char : Option String) (freq : Int) (left : Option HNode) (right : Option HNode)

def HNode.char : HNode → Option String
  | .mk c _ _ _ => c

def HNode.freq : HNode → Int
  | .mk _ f _ _ => f

def HNode.left : HNode → Option HNode
  | .mk _ _ l _ => l

def HNode.right : HNode → Option HNode
  | .mk _ _ _ r => r

/-- Structural induction for the nested inductive `HNode`. -/
theorem HNode.ind (motive : HNode → Prop)
    (step : ∀ (c : Option String) (f : Int) (l r : Option HNode),
      (∀ tl, l = some tl → motive tl) → (∀ tr, r = some tr → motive tr) →
      motive (.mk c f l r)) :
    ∀ t, motive t := by
  have H : ∀ (n : Nat) (t : HNode), sizeOf t ≤ n → motive t := by
    intro n
    induction n with
    | zero =>
      intro t ht
      obtain ⟨c, f, l, r⟩ := t
      simp at ht
    | succ n ih =>
      intro t ht
      obtain ⟨c, f, l, r⟩ := t
      refine step c f l r ?_ ?_
      · intro tl hl
        subst hl
        refine ih tl ?_
        have hs : sizeOf (some tl) = 1 + sizeOf tl := by simp
        simp only [HNode.mk.sizeOf_spec] at ht
        omega
      · intro tr hr
        subst hr
        refine ih tr ?_
        have hs : sizeOf (some tr) = 1 + sizeOf tr := by simp
        simp only [HNode.mk.sizeOf_spec] at ht
        omega
  exact fun t => H (sizeOf t) t (le_refl _)

/-- `HuffmanNode.__lt__`: comparison used by `heapq` is on frequency only. -/
def hlt (a b : HNode) : Bool := a.freq < b.freq

/-- `heap[i]` in contexts where CPython guarantees the index is in range. -/
def hget (heap : List HNode) (i : Nat) : HNode :=
  (heap[i]?).getD (.mk none 0 none none)

/-- CPython `heapq._siftdown(heap, startpos, pos)` (moves `heap[pos]` toward
the root), written with swaps. -/
def siftdown (heap : List HNode) (startpos pos : Nat) : List HNode :=
  if _h : startpos < pos then
    let parentpos := (pos - 1) / 2
    if hlt (hget heap pos) (hget heap parentpos) then
      siftdown (lswap heap pos parentpos) startpos parentpos
    else heap
  else heap
termination_by pos
decreasing_by omega

/-- CPython `heapq._siftup(heap, pos)` main loop (moves `heap[pos]` down to a
leaf, following the smaller child), written with swaps; finishes with
`_siftdown` from the final position, exactly as CPython does. -/
def siftupLoop (heap : List HNode) (startpos pos : Nat) : List HNode :=
  if h : 2 * pos + 1 < heap.length then
    let childpos := 2 * pos + 1
    let childpos2 :=
      if childpos + 1 < heap.length ∧ ¬ hlt (hget heap childpos) (hget heap (childpos + 1))
      then childpos + 1 else childpos
    siftupLoop (lswap heap pos childpos2) startpos childpos2
  else siftdown heap startpos pos
termination_by heap.length - pos
decreasing_by
  simp only [lswap_length]
  split <;> omega

/-- CPython `heapq.heapify` inner loop: apply `_siftup` at indices
`k-1, k-2, ..., 0`. -/
def heapifyLoop : List HNode → Nat → List HNode
  | heap, 0 => heap
  | heap, k + 1 => heapifyLoop (siftupLoop heap (k) (k)) k

/-- CPython `heapq.heapify`: `for i in reversed(range(n//2)): _siftup(x, i)`. -/
def heapify (heap : List HNode) : List HNode := heapifyLoop heap (heap.length / 2)

/-- CPython `heapq.heappush`: append, then `_siftdown(heap, 0, len(heap)-1)`. -/
def heappush (heap : List HNode) (item : HNode) : List HNode :=
  siftdown (heap ++ [item]) 0 heap.length

/-- CPython `heapq.heappop`: pop the last element; on a nonempty remainder put
it at the root and `_siftup(heap, 0)`. `none` models the `IndexError` on an
empty heap. -/
def heappop : List HNode → Option (HNode × List HNode)
  | [] => none
  | [x] => some (x, [])
  | x :: y :: t =>
    some (x, siftupLoop (((y :: t).getLast (by simp)) :: (y :: t).dropLast) 0 0)

theorem siftdown_length (heap : List HNode) (startpos pos : Nat) :
    (siftdown heap startpos pos).length = heap.length := by
  induction heap, startpos, pos using siftdown.induct with
  | case1 heap startpos pos h parentpos hl ih =>
    rw [siftdown]
    simp only [dif_pos h, if_pos hl]
    rw [ih, lswap_length]
  | case2 heap startpos pos h parentpos hl =>
    rw [siftdown]
    simp only [dif_pos h, if_neg hl]
  | case3 heap startpos pos h =>
    rw [siftdown]
    simp only [dif_neg h]

theorem siftdown_perm (heap : List HNode) (startpos pos : Nat) :
    List.Perm (siftdown heap startpos pos) heap := by
  induction heap, startpos, pos using siftdown.induct with
  | case1 heap startpos pos h parentpos hl ih =>
    rw [siftdown]
    simp only [dif_pos h, if_pos hl]
    exact ih.trans (lswap_perm _ _ _)
  | case2 heap startpos pos h parentpos hl =>
    rw [siftdown]
    simp only [dif_pos h, if_neg hl]
    exact List.Perm.refl _
  | case3 heap startpos pos h =>
    rw [siftdown]
    simp only [dif_neg h]
    exact List.Perm.refl _

theorem siftupLoop_length (heap : List HNode) (startpos pos : Nat) :
    (siftupLoop heap startpos pos).length = heap.length := by
  induction heap, startpos, pos using siftupLoop.induct with
  | case1 heap startpos pos h childpos childpos2 ih =>
    rw [siftupLoop]
    simp only [dif_pos h]
    exact ih.trans (lswap_length heap pos childpos2)
  | case2 heap startpos pos h =>
    rw [siftupLoop]
    simp only [dif_neg h]
    exact siftdown_length _ _ _

theorem siftupLoop_perm (heap : List HNode) (startpos pos : Nat) :
    List.Perm (siftupLoop heap startpos pos) heap := by
  induction heap, startpos, pos using siftupLoop.induct with
  | case1 heap startpos pos h childpos childpos2 ih =>
    rw [siftupLoop]
    simp only [dif_pos h]
    exact ih.trans (lswap_perm _ _ _)
  | case2 heap startpos pos h =>
    rw [siftupLoop]
    simp only [dif_neg h]
    exact siftdown_perm _ _ _

theorem heapifyLoop_perm (heap : List HNode) (k : Nat) :
    List.Perm (heapifyLoop heap k) heap := by
  induction k generalizing heap with
  | zero => exact List.Perm.refl _
  | succ k ih => exact (ih _).trans (siftupLoop_perm _ _ _)

theorem heapify_perm (heap : List HNode) : List.Perm (heapify heap) heap :=
  heapifyLoop_perm heap _

theorem heappush_length (heap : List HNode) (item : HNode) :
    (heappush heap item).length = heap.length + 1 := by
  unfold heappush
  rw [siftdown_length]
  simp

theorem heappush_perm (heap : List HNode) (item : HNode) :
    List.Perm (heappush heap item) (item :: heap) :=
  (siftdown_perm _ _ _).trans (by simpa using List.perm_append_comm)

theorem heappop_length {heap rest : List HNode} {x : HNode}
    (h : heappop heap = some (x, rest)) : rest.length + 1 = heap.length := by
  match heap, h with
  | [x'], h =>
    simp [heappop] at h
    simp [h.2.symm]
  | x' :: y :: t, h =>
    simp only [heappop, Option.some.injEq, Prod.mk.injEq] at h
    rw [← h.2, siftupLoop_length]
    simp

theorem heappop_perm {heap rest : List HNode} {x : HNode}
    (h : heappop heap = some (x, rest)) : List.Perm heap (x :: rest) := by
  match heap, h with
  | [x'], h =>
    simp [heappop] at h
    simp [h.1, h.2.symm]
  | x' :: y :: t, h =>
    simp only [heappop, Option.some.injEq, Prod.mk.injEq] at h
    rw [← h.1, ← h.2]
    refine List.Perm.cons x' ?_
    have sp := siftupLoop_perm (((y :: t).getLast (by simp)) :: (y :: t).dropLast) 0 0
    have hperm : List.Perm (y :: t) (((y :: t).getLast (by simp)) :: (y :: t).dropLast) := by
      have hgl : (y :: t).dropLast ++ [(y :: t).getLast (by simp)] = y :: t :=
        List.dropLast_append_getLast (by simp)
      conv_lhs => rw [← hgl]
      exact List.perm_append_comm
    exact hperm.trans sp.symm

/-- The symbols at the leaves of a tree, in preorder (node's own symbol, then
left subtree, then right subtree) — the order `build_codes` visits them. -/
def syms : HNode → List String
  | .mk c _ l r =>
    (match c with | some s => [s] | none => []) ++
    (match l with | some tl => syms tl | none => []) ++
    (match r with | some tr => syms tr | none => [])

/-- Well-formed Huffman tree as produced by the construction loop: a leaf
carries a symbol and no children; an internal node carries no symbol and two
children. -/
inductive WF : HNode → Prop
  | leaf (c : String) (f : Int) : WF (.mk (some c) f none none)
  | node (f : Int) (l r : HNode) : WF l → WF r → WF (.mk none f (some l) (some r))

/-- The initial heap contents: one leaf node per `frequency.items()` entry, in
dict order. -/
def initNodes (frequency : List (String × Int)) : List HNode :=
  frequency.map fun kv => .mk (some kv.1) kv.2 none none

/-- The merge loop shared by `build_huffman_tree` and
`build_tree_from_frequency`: while the heap has more than one node, pop the
two lowest-frequency nodes, merge them under a fresh internal node, and push
the merge back. -/
def treeLoop (heap : List HNode) : List HNode :=
  if h : 1 < heap.length then
    match hp1 : heappop heap with
    | none => heap
    | some (node1, h1) =>
      match hp2 : heappop h1 with
      | none => heap
      | some (node2, h2) =>
        treeLoop (heappush h2 (.mk none (node1.freq + node2.freq) (some node1) (some node2)))
  else heap
termination_by heap.length
decreasing_by
  have e1 := heappop_length hp1
  have e2 := heappop_length hp2
  rw [heappush_length]
  omega

/-- `build_huffman_tree(text)`: `(None, {})` on empty text, otherwise heapify
the per-symbol leaf nodes of `Counter(text)` and run the merge loop; the
result is `(heap[0], frequency)`. -/
def build_huffman_tree (text : List Char) : Option HNode × List (String × Int) :=
  if text = [] then (none, [])
  else
    let frequency := counter text
    let heap := heapify (initNodes frequency)
    ((treeLoop heap).head?, frequency)

/-- `build_tree_from_frequency(frequency)`: `None` for an empty table,
otherwise the same heap loop on the given table; a final (unreachable for
non-empty tables) guard returns `HuffmanNode(None, 0)` if the heap is empty. -/
def build_tree_from_frequency (frequency : List (String × Int)) : Option HNode :=
  if frequency = [] then none
  else
    let heap := heapify (initNodes frequency)
    match treeLoop heap with
    | [] => some (.mk none 0 none none)
    | root :: _ => some root

/-- `build_codes(node, prefix, codebook)`: record the node's symbol (if any)
under the accumulated prefix, then traverse left with `prefix + "0"` and right
with `prefix + "1"`. -/
def build_codes : Option HNode → String → List (String × String) → List (String × String)
  | none, _, cb => cb
  | some (.mk c _ l r), pfx, cb =>
    let cb1 := match c with
      | some s => assocSet cb s pfx
      | none => cb
    build_codes r (pfx ++ "1") (build_codes l (pfx ++ "0") cb1)

theorem syms_merged (c₁ c₂ : Option String) (f f₁ f₂ : Int) (l₁ r₁ l₂ r₂ : Option HNode) :
    syms (.mk none f (some (.mk c₁ f₁ l₁ r₁)) (some (.mk c₂ f₂ l₂ r₂))) =
      syms (.mk c₁ f₁ l₁ r₁) ++ syms (.mk c₂ f₂ l₂ r₂) := by
  simp [syms]

theorem heappop_isSome (heap : List HNode) (hne : heap ≠ []) :
    (heappop heap).isSome := by
  match heap with
  | [] => exact absurd rfl hne
  | [x] => simp [heappop]
  | x :: y :: t => simp [heappop]

theorem treeLoop_eq_merge {heap h1 h2 : List HNode} {node1 node2 : HNode}
    (h : 1 < heap.length)
    (hp1 : heappop heap = some (node1, h1)) (hp2 : heappop h1 = some (node2, h2)) :
    treeLoop heap =
      treeLoop (heappush h2 (.mk none (node1.freq + node2.freq) (some node1) (some node2))) := by
  rw [treeLoop]
  simp only [dif_pos h]
  split
  · next heq => rw [hp1] at heq; exact Option.noConfusion heq
  · next a b heq =>
    rw [hp1] at heq
    obtain ⟨rfl, rfl⟩ : node1 = a ∧ h1 = b := by
      have := Option.some.inj heq
      exact ⟨congrArg Prod.fst this, congrArg Prod.snd this⟩
    split
    · next heq2 => rw [hp2] at heq2; exact Option.noConfusion heq2
    · next a2 b2 heq2 =>
      rw [hp2] at heq2
      obtain ⟨rfl, rfl⟩ : node2 = a2 ∧ h2 = b2 := by
        have := Option.some.inj heq2
        exact ⟨congrArg Prod.fst this, congrArg Prod.snd this⟩
      rfl

theorem treeLoop_eq_base {heap : List HNode} (h : ¬ 1 < heap.length) :
    treeLoop heap = heap := by
  rw [treeLoop]
  simp only [dif_neg h]

theorem treeLoop_pop_ne_none (heap : List HNode) (h : 1 < heap.length)
    (hp1 : heappop heap = none) : False := by
  have := heappop_isSome heap (by intro hc; rw [hc] at h; simp at h)
  rw [hp1] at this
  simp at this

theorem treeLoop_pop2_ne_none {heap h1 : List HNode} {node1 : HNode} (h : 1 < heap.length)
    (hp1 : heappop heap = some (node1, h1)) (hp2 : heappop h1 = none) : False := by
  have e1 := heappop_length hp1
  have hne : h1 ≠ [] := by intro hc; rw [hc] at e1; simp at e1; omega
  have := heappop_isSome h1 hne
  rw [hp2] at this
  simp at this

theorem initNodes_syms (frequency : List (String × Int)) :
    (initNodes frequency).flatMap syms = frequency.map Prod.fst := by
  induction frequency with
  | nil => rfl
  | cons kv t ih =>
    simp only [initNodes, List.map_cons, List.flatMap_cons, syms] at ih ⊢
    rw [ih]
    simp

theorem initNodes_wf (frequency : List (String × Int)) :
    ∀ n ∈ initNodes frequency, WF n := by
  intro n hn
  obtain ⟨kv, _, rfl⟩ := List.mem_map.1 hn
  exact WF.leaf kv.1 kv.2

theorem treeLoop_length (heap : List HNode) (hne : heap ≠ []) :
    (treeLoop heap).length = 1 := by
  induction heap using treeLoop.induct with
  | case1 heap h hp1 => exact (treeLoop_pop_ne_none heap h hp1).elim
  | case2 heap h node1 h1 hp1 hp2 => exact (treeLoop_pop2_ne_none h hp1 hp2).elim
  | case3 heap h node1 h1 hp1 node2 h2 hp2 ih =>
    rw [treeLoop_eq_merge h hp1 hp2]
    refine ih ?_
    intro hcon
    have e1 := heappop_length hp1
    have e2 := heappop_length hp2
    have := heappush_length h2 (.mk none (node1.freq + node2.freq) (some node1) (some node2))
    rw [hcon] at this
    simp at this
  | case4 heap h =>
    cases heap with
    | nil => simp at hne
    | cons a t =>
      cases t with
      | nil => rw [treeLoop_eq_base h]; rfl
      | cons b t2 => simp at h

theorem treeLoop_syms (heap : List HNode) :
    List.Perm ((treeLoop heap).flatMap syms) (heap.flatMap syms) := by
  induction heap using treeLoop.induct with
  | case1 heap h hp1 => exact (treeLoop_pop_ne_none heap h hp1).elim
  | case2 heap h node1 h1 hp1 hp2 => exact (treeLoop_pop2_ne_none h hp1 hp2).elim
  | case3 heap h node1 h1 hp1 node2 h2 hp2 ih =>
    rw [treeLoop_eq_merge h hp1 hp2]
    refine ih.trans ?_
    have p1 : List.Perm heap (node1 :: h1) := heappop_perm hp1
    have p2 : List.Perm h1 (node2 :: h2) := heappop_perm hp2
    have ppush := (heappush_perm h2 (.mk none (node1.freq + node2.freq) (some node1) (some node2))).flatMap_right syms
    refine ppush.trans ?_
    have pheap := (p1.trans (p2.cons node1)).flatMap_right syms
    refine List.Perm.symm (pheap.trans ?_)
    obtain ⟨c₁, f₁, l₁, r₁⟩ := node1
    obtain ⟨c₂, f₂, l₂, r₂⟩ := node2
    simp only [List.flatMap_cons, syms_merged, HNode.freq, List.append_assoc]
    exact List.Perm.refl _
  | case4 heap h =>
    rw [treeLoop_eq_base h]

theorem treeLoop_wf (heap : List HNode) (hwf : ∀ n ∈ heap, WF n) :
    ∀ n ∈ treeLoop heap, WF n := by
  induction heap using treeLoop.induct with
  | case1 heap h hp1 => exact (treeLoop_pop_ne_none heap h hp1).elim
  | case2 heap h node1 h1 hp1 hp2 => exact (treeLoop_pop2_ne_none h hp1 hp2).elim
  | case3 heap h node1 h1 hp1 node2 h2 hp2 ih =>
    rw [treeLoop_eq_merge h hp1 hp2]
    refine ih ?_
    have p1 : List.Perm heap (node1 :: h1) := heappop_perm hp1
    have p2 : List.Perm h1 (node2 :: h2) := heappop_perm hp2
    have hmem1 : node1 ∈ heap := p1.symm.subset (List.mem_cons_self _ _)
    have hmem2 : node2 ∈ heap := p1.symm.subset
      (List.mem_cons_of_mem _ (p2.symm.subset (List.mem_cons_self _ _)))
    intro n hn
    have hsub := (heappush_perm h2 (.mk none (node1.freq + node2.freq) (some node1) (some node2))).subset hn
    rcases List.mem_cons.1 hsub with rfl | hmem
    · exact WF.node _ _ _ (hwf _ hmem1) (hwf _ hmem2)
    · exact hwf n (p1.symm.subset (List.mem_cons_of_mem _ (p2.symm.subset (List.mem_cons_of_mem _ hmem))))
  | case4 heap h =>
    rw [treeLoop_eq_base h]
    exact hwf

/-- Root-relative description of the codebook `build_codes` produces: the
preorder list of (leaf symbol, path from the root as a list of bit
characters). -/
def codesListC : HNode → List (String × List Char)
  | .mk c _ l r =>
    (match c with | some s => [(s, ([] : List Char))] | none => []) ++
    ((match l with
      | some tl => codesListC tl
      | none => ([] : List (String × List Char))).map fun (e : String × List Char) => (e.1, '0' :: e.2)) ++
    ((match r with
      | some tr => codesListC tr
      | none => ([] : List (String × List Char))).map fun (e : String × List Char) => (e.1, '1' :: e.2))

theorem codesListC_keys (t : HNode) : (codesListC t).map Prod.fst = syms t := by
  induction t using HNode.ind with
  | step c f l r ihl ihr =>
    rw [codesListC.eq_def, syms.eq_def]
    cases c <;> cases l <;> cases r <;>
      simp_all [List.map_map, Function.comp_def]

theorem string_append_mk_cons (s : String) (c : Char) (cs : List Char) :
    (s ++ String.mk [c]) ++ String.mk cs = s ++ String.mk (c :: cs) := by
  apply String.ext
  simp

theorem build_codes_some (c : Option String) (f : Int) (l r : Option HNode)
    (pfx : String) (cb : List (String × String)) :
    build_codes (some (.mk c f l r)) pfx cb =
      build_codes r (pfx ++ "1") (build_codes l (pfx ++ "0")
        (match c with | some s => assocSet cb s pfx | none => cb)) := by
  rw [build_codes.eq_def]

theorem codesListC_node (c : Option String) (f : Int) (l r : Option HNode) :
    codesListC (.mk c f l r) =
      (match c with | some s => [(s, ([] : List Char))] | none => []) ++
      ((match l with
        | some tl => codesListC tl
        | none => ([] : List (String × List Char))).map
          fun (e : String × List Char) => (e.1, '0' :: e.2)) ++
      ((match r with
        | some tr => codesListC tr
        | none => ([] : List (String × List Char))).map
          fun (e : String × List Char) => (e.1, '1' :: e.2)) := by
  rw [codesListC.eq_def]

/-- `build_codes` is the fold of Python dict assignment over the preorder
(symbol, prefixed path) entries. -/
theorem build_codes_eq (t : HNode) : ∀ (pfx : String) (cb : List (String × String)),
    build_codes (some t) pfx cb =
      (codesListC t).foldl (fun acc e => assocSet acc e.1 (pfx ++ String.mk e.2)) cb := by
  induction t using HNode.ind with
  | step c f l r ihl ihr =>
    intro pfx cb
    rw [build_codes_some, codesListC_node]
    have hl : ∀ cb', build_codes l (pfx ++ "0") cb' =
        (match l with
          | some tl => codesListC tl
          | none => ([] : List (String × List Char))).foldl
          (fun acc (e : String × List Char) => assocSet acc e.1 (pfx ++ String.mk ('0' :: e.2))) cb' := by
      intro cb'
      cases l with
      | none => simp [build_codes]
      | some tl =>
        rw [ihl tl rfl]
        have heq : ∀ (e : String × List Char),
            (pfx ++ "0") ++ String.mk e.2 = pfx ++ String.mk ('0' :: e.2) := fun e =>
          string_append_mk_cons pfx '0' e.2
        simp only [heq]
    have hr : ∀ cb', build_codes r (pfx ++ "1") cb' =
        (match r with
          | some tr => codesListC tr
          | none => ([] : List (String × List Char))).foldl
          (fun acc (e : String × List Char) => assocSet acc e.1 (pfx ++ String.mk ('1' :: e.2))) cb' := by
      intro cb'
      cases r with
      | none => simp [build_codes]
      | some tr =>
        rw [ihr tr rfl]
        have heq : ∀ (e : String × List Char),
            (pfx ++ "1") ++ String.mk e.2 = pfx ++ String.mk ('1' :: e.2) := fun e =>
          string_append_mk_cons pfx '1' e.2
        simp only [heq]
    rw [hl, hr]
    rw [List.foldl_append, List.foldl_append, List.foldl_map, List.foldl_map]
    have hmk : pfx ++ String.mk ([] : List Char) = pfx := by
      apply String.ext
      simp
    cases c with
    | none => simp
    | some s => simp [hmk]

theorem assocSet_fresh {κ ν : Type} [DecidableEq κ] (l : List (κ × ν)) (k : κ) (v : ν)
    (h : k ∉ l.map Prod.fst) : assocSet l k v = l ++ [(k, v)] := by
  induction l with
  | nil => rfl
  | cons hd t ih =>
    obtain ⟨k', v'⟩ := hd
    simp only [List.map_cons, List.mem_cons] at h
    push_neg at h
    rw [assocSet, if_neg (fun hc => h.1 hc.symm), ih h.2]
    rfl

theorem foldl_assocSet_fresh {κ ν : Type} [DecidableEq κ] :
    ∀ (es : List (κ × ν)) (acc : List (κ × ν)),
      (acc.map Prod.fst ++ es.map Prod.fst).Nodup →
      es.foldl (fun a e => assocSet a e.1 e.2) acc = acc ++ es := by
  intro es
  induction es with
  | nil => intro acc _; simp
  | cons e t ih =>
    intro acc hnd
    obtain ⟨k, v⟩ := e
    simp only [List.map_cons] at hnd
    have hk : k ∉ acc.map Prod.fst := by
      intro hc
      exact (List.nodup_append.1 hnd).2.2 hc (List.mem_cons_self _ _)
    rw [List.foldl_cons, assocSet_fresh acc k v hk, ih]
    · simp
    · simp only [List.map_append, List.map_cons, List.map_nil]
      have hassoc : acc.map Prod.fst ++ [k] ++ t.map Prod.fst =
          acc.map Prod.fst ++ k :: t.map Prod.fst := by simp
      rw [hassoc]
      exact hnd

/-- The decoder's bit loop in `decompress_from_file`: follow `'0'` to the left
child and any other bit to the right child, emit the child's symbol and reset
to the root at a leaf; `none` models the `AttributeError` Python raises when
the walk steps into an absent child. -/
def treeWalk (root : HNode) : List Char → HNode → List String → Option (List String)
  | [], _, acc => some acc
  | bit :: bs, cur, acc =>
    match (if bit = '0' then cur.left else cur.right) with
    | none => none
    | some nxt =>
      match nxt.char with
      | some ch => treeWalk root bs root (acc ++ [ch])
      | none => treeWalk root bs nxt acc

theorem treeWalk_nil (g : HNode) (cur : HNode) (acc : List String) :
    treeWalk g [] cur acc = some acc := rfl

theorem treeWalk_cons (g : HNode) (bit : Char) (bs : List Char) (cur : HNode)
    (acc : List String) :
    treeWalk g (bit :: bs) cur acc =
      match (if bit = '0' then cur.left else cur.right) with
      | none => none
      | some nxt =>
        match nxt.char with
        | some ch => treeWalk g bs g (acc ++ [ch])
        | none => treeWalk g bs nxt acc := rfl

/-- Walking the path of a codebook entry from an internal node consumes the
path, emits the entry's symbol, and resets to the root. -/
theorem treeWalk_code (g : HNode) :
    ∀ (t : HNode), WF t → t.char = none →
      ∀ (s : String) (p : List Char), (s, p) ∈ codesListC t →
        ∀ (rest : List Char) (acc : List String),
          treeWalk g (p ++ rest) t acc = treeWalk g rest g (acc ++ [s]) := by
  intro t hwf
  induction hwf with
  | leaf c f => intro hchar; simp [HNode.char] at hchar
  | node f l r hwl hwr ihl ihr =>
    intro _ s p hp rest acc
    rw [codesListC_node] at hp
    simp only [List.nil_append, List.mem_append, List.mem_map] at hp
    rcases hp with ⟨⟨s1, p1⟩, he, heq⟩ | ⟨⟨s1, p1⟩, he, heq⟩
    · injection heq with h1 h2
      subst h1
      subst h2
      rw [List.cons_append, treeWalk_cons]
      simp only [if_pos rfl, HNode.left]
      cases hwl with
      | leaf c0 f0 =>
        have hmem : s1 = c0 ∧ p1 = [] := by
          have := he
          rw [codesListC_node] at this
          simp at this
          exact this
        obtain ⟨rfl, rfl⟩ := hmem
        simp [HNode.char]
      | node fl ll rl hwll hwrl =>
        simp only [HNode.char]
        exact ihl rfl s1 p1 he rest acc
    · injection heq with h1 h2
      subst h1
      subst h2
      rw [List.cons_append, treeWalk_cons]
      have hne : ('1' : Char) ≠ '0' := by decide
      simp only [if_neg hne, HNode.right]
      cases hwr with
      | leaf c0 f0 =>
        have hmem : s1 = c0 ∧ p1 = [] := by
          have := he
          rw [codesListC_node] at this
          simp at this
          exact this
        obtain ⟨rfl, rfl⟩ := hmem
        simp [HNode.char]
      | node fr lr rr hwlr hwrr =>
        simp only [HNode.char]
        exact ihr rfl s1 p1 he rest acc

/-- Walking the concatenated paths of codebook entries emits their symbols in
order. -/
theorem treeWalk_entries (g : HNode) (hwf : WF g) (hchar : g.char = none) :
    ∀ (es : List (String × List Char)), (∀ e ∈ es, e ∈ codesListC g) →
      ∀ acc, treeWalk g (es.flatMap Prod.snd) g acc = some (acc ++ es.map Prod.fst) := by
  intro es
  induction es with
  | nil => intro _ acc; simp [treeWalk_nil]
  | cons e t ih =>
    intro hmem acc
    obtain ⟨s, p⟩ := e
    rw [List.flatMap_cons]
    rw [treeWalk_code g g hwf hchar s p (hmem _ (List.mem_cons_self _ _))]
    rw [ih (fun e he => hmem e (List.mem_cons_of_mem _ he))]
    simp

/-- The codebook of a well-formed tree is prefix-free: entries' paths are
pairwise incomparable. -/
theorem codesListC_prefixFree (t : HNode) (hwf : WF t) :
    (codesListC t).Pairwise (fun a b => ¬ (a.2 <+: b.2) ∧ ¬ (b.2 <+: a.2)) := by
  induction hwf with
  | leaf c f => simp [codesListC_node]
  | node f l r hwl hwr ihl ihr =>
    rw [codesListC_node]
    simp only [List.nil_append]
    rw [List.pairwise_append]
    refine ⟨?_, ?_, ?_⟩
    · rw [List.pairwise_map]
      refine ihl.imp ?_
      intro a b hab
      refine ⟨?_, ?_⟩
      · intro hp
        exact hab.1 ((List.cons_prefix_cons.1 hp).2)
      · intro hp
        exact hab.2 ((List.cons_prefix_cons.1 hp).2)
    · rw [List.pairwise_map]
      refine ihr.imp ?_
      intro a b hab
      refine ⟨?_, ?_⟩
      · intro hp
        exact hab.1 ((List.cons_prefix_cons.1 hp).2)
      · intro hp
        exact hab.2 ((List.cons_prefix_cons.1 hp).2)
    · intro a ha b hb
      obtain ⟨ea, _, rfl⟩ := List.mem_map.1 ha
      obtain ⟨eb, _, rfl⟩ := List.mem_map.1 hb
      refine ⟨?_, ?_⟩
      · intro hp
        have := (List.cons_prefix_cons.1 hp).1
        exact absurd this (by decide)
      · intro hp
        have := (List.cons_prefix_cons.1 hp).1
        exact absurd this (by decide)

/-- `int(s, 2)` on the `'0'`/`'1'` strings the encoder produces. -/
def int2 (s : List Char) : Nat :=
  s.foldl (fun a c => 2 * a + (if c = '1' then 1 else 0)) 0

/-- The encoder's packing loop: `for i in range(0, len(bits), 8)` take the
next 8 bit characters and append `int(chunk, 2)`. -/
def bitsToBytes : List Char → List Nat
  | [] => []
  | c :: rest => int2 ((c :: rest).take 8) :: bitsToBytes ((c :: rest).drop 8)
termination_by l => l.length
decreasing_by simp; omega

/-- Fixed-width big-endian binary digits of `n`. -/
def natToBits : Nat → Nat → List Char
  | 0, _ => []
  | w + 1, n => natToBits w (n / 2) ++ [if n % 2 = 1 then '1' else '0']

/-- `bin(byte)[2:].zfill(8)` for a byte read from the file (always < 256). -/
def byteBits (b : Nat) : List Char := natToBits 8 (b % 256)

theorem natToBits_length (w n : Nat) : (natToBits w n).length = w := by
  induction w generalizing n with
  | zero => rfl
  | succ w ih => simp [natToBits, ih]

theorem int2_append_one (s : List Char) (c : Char) :
    int2 (s ++ [c]) = 2 * int2 s + (if c = '1' then 1 else 0) := by
  unfold int2
  rw [List.foldl_append]
  rfl

theorem int2_lt (s : List Char) : int2 s < 2 ^ s.length := by
  induction s using List.reverseRecOn with
  | nil => simp [int2]
  | append_singleton s c ih =>
    rw [int2_append_one]
    simp only [List.length_append, List.length_singleton]
    rw [pow_succ]
    split <;> omega

theorem natToBits_int2 (s : List Char) (hbin : ∀ c ∈ s, c = '0' ∨ c = '1') :
    natToBits s.length (int2 s) = s := by
  induction s using List.reverseRecOn with
  | nil => rfl
  | append_singleton s c ih =>
    rw [int2_append_one]
    simp only [List.length_append, List.length_singleton]
    rw [natToBits]
    have hdiv : (2 * int2 s + (if c = '1' then 1 else 0)) / 2 = int2 s := by
      split <;> omega
    have hmod : (2 * int2 s + (if c = '1' then 1 else 0)) % 2 = (if c = '1' then 1 else 0) := by
      split <;> omega
    rw [hdiv, hmod, ih (fun x hx => hbin x (List.mem_append_left _ hx))]
    have hc := hbin c (List.mem_append_right _ (List.mem_singleton_self c))
    rcases hc with rfl | rfl <;> simp

/-- Unpacking the packed bytes recovers the padded bit string. -/
theorem bitsToBytes_roundtrip (s : List Char) (hbin : ∀ c ∈ s, c = '0' ∨ c = '1')
    (hlen : s.length % 8 = 0) : (bitsToBytes s).flatMap byteBits = s := by
  induction s using bitsToBytes.induct with
  | case1 => simp [bitsToBytes]
  | case2 c rest ih =>
    rw [bitsToBytes, List.flatMap_cons]
    have hlen8 : 8 ≤ (c :: rest).length := by
      by_contra hcon
      have h1 : (c :: rest).length % 8 = (c :: rest).length := Nat.mod_eq_of_lt (by omega)
      rw [hlen] at h1
      simp at h1
    have htake : ((c :: rest).take 8).length = 8 := by
      rw [List.length_take]
      omega
    have hbb : byteBits (int2 ((c :: rest).take 8)) = (c :: rest).take 8 := by
      unfold byteBits
      have hlt : int2 ((c :: rest).take 8) < 256 := by
        have := int2_lt ((c :: rest).take 8)
        rw [htake] at this
        simpa using this
      rw [Nat.mod_eq_of_lt hlt]
      have hnb := natToBits_int2 ((c :: rest).take 8)
        (fun x hx => hbin x (List.mem_of_mem_take hx))
      rw [htake] at hnb
      exact hnb
    rw [hbb, ih (fun x hx => hbin x (List.mem_of_mem_drop hx)) ?hx]
    · exact List.take_append_drop 8 (c :: rest)
    · rw [List.length_drop]
      omega

/-- ASCII bytes of `str(n)` for a natural number. -/
def natDigits (n : Nat) : List Nat :=
  if n < 10 then [48 + n] else natDigits (n / 10) ++ [48 + n % 10]
termination_by n
decreasing_by exact Nat.div_lt_self (by omega) (by omega)

def isDigit (b : Nat) : Bool := 48 ≤ b ∧ b ≤ 57

def digitsToNat (l : List Nat) : Nat := l.foldl (fun a b => 10 * a + (b - 48)) 0

/-- `int(line)` on a stripped bytes line: optional sign then decimal digits;
`none` models the `ValueError`. -/
def parseIntBytes (l : List Nat) : Option Int :=
  match l with
  | 45 :: rest =>
    if rest ≠ [] ∧ rest.all isDigit then some (-(digitsToNat rest : Int)) else none
  | 43 :: rest =>
    if rest ≠ [] ∧ rest.all isDigit then some ((digitsToNat rest : Int)) else none
  | _ => if l ≠ [] ∧ l.all isDigit then some ((digitsToNat l : Int)) else none

theorem natDigits_all_digits (n : Nat) : (natDigits n).all isDigit := by
  induction n using natDigits.induct with
  | case1 n h =>
    rw [natDigits, if_pos h]
    simp [isDigit]
    omega
  | case2 n h ih =>
    rw [natDigits, if_neg h]
    simp only [List.all_append, ih, Bool.true_and]
    simp [isDigit]
    omega

theorem natDigits_ne_nil (n : Nat) : natDigits n ≠ [] := by
  rw [natDigits]
  split <;> simp

theorem digitsToNat_natDigits (n : Nat) : digitsToNat (natDigits n) = n := by
  induction n using natDigits.induct with
  | case1 n h =>
    rw [natDigits, if_pos h]
    simp [digitsToNat]
  | case2 n h ih =>
    rw [natDigits, if_neg h]
    unfold digitsToNat at ih ⊢
    rw [List.foldl_append, ih]
    simp
    omega

theorem parseIntBytes_natDigits (n : Nat) : parseIntBytes (natDigits n) = some (n : Int) := by
  have hall := natDigits_all_digits n
  have hne := natDigits_ne_nil n
  have hval := digitsToNat_natDigits n
  match hnd : natDigits n with
  | [] => exact absurd hnd hne
  | b :: rest =>
    have hb : isDigit b := by
      rw [hnd] at hall
      simp [List.all_cons] at hall
      exact hall.1
    have hb45 : b ≠ 45 := by
      simp [isDigit] at hb
      omega
    have hb43 : b ≠ 43 := by
      simp [isDigit] at hb
      omega
    rw [hnd] at hall hval
    unfold parseIntBytes
    match b, hb45, hb43 with
    | b, hb45, hb43 =>
      split
      · next heq => exact absurd (List.cons.injEq .. ▸ heq).1 hb45
      · next heq => exact absurd (List.cons.injEq .. ▸ heq).1 hb43
      · rw [if_pos ⟨by simp, hall⟩, hval]

/-- Bytes whitespace as `bytes.strip()` treats it. -/
def isSpaceByte (b : Nat) : Bool := b = 9 ∨ b = 10 ∨ b = 11 ∨ b = 12 ∨ b = 13 ∨ b = 32

/-- `line.strip()` on bytes: drop ASCII whitespace at both ends. -/
def bstrip (l : List Nat) : List Nat :=
  ((l.dropWhile isSpaceByte).reverse.dropWhile isSpaceByte).reverse

/-- `f.readline()` on a binary file: everything up to and including the first
newline byte (or to EOF). -/
def readline : List Nat → List Nat × List Nat
  | [] => ([], [])
  | b :: rest =>
    if b = 10 then ([10], rest)
    else
      let pr := readline rest
      (b :: pr.1, pr.2)

theorem readline_append (l r : List Nat) (hl : 10 ∉ l) :
    readline (l ++ 10 :: r) = (l ++ [10], r) := by
  induction l with
  | nil => simp [readline]
  | cons b t ih =>
    simp only [List.mem_cons, not_or] at hl
    have hb : ¬ b = 10 := fun h => hl.1 h.symm
    rw [List.cons_append, readline]
    simp only [if_neg hb, ih hl.2]
    simp

theorem bstrip_append_newline (l : List Nat) (hhead : ∀ b, l.head? = some b → isSpaceByte b = false)
    (hlast : ∀ b, l.getLast? = some b → isSpaceByte b = false) :
    bstrip (l ++ [10]) = l := by
  cases l with
  | nil => simp [bstrip, isSpaceByte, List.dropWhile]
  | cons a t =>
    unfold bstrip
    have ha : isSpaceByte a = false := hhead a rfl
    have h1 : List.dropWhile isSpaceByte ((a :: t) ++ [10]) = (a :: t) ++ [10] := by
      rw [List.cons_append]
      exact List.dropWhile_cons_of_neg (by simp [ha])
    rw [h1, List.reverse_append]
    simp only [List.reverse_cons, List.reverse_nil, List.nil_append, List.singleton_append]
    rw [List.dropWhile_cons_of_pos (by simp [isSpaceByte])]
    rw [← List.reverse_cons]
    cases hrev2 : (a :: t).reverse with
    | nil => simp at hrev2
    | cons x xs =>
      have hx : (a :: t).getLast? = some x := by
        rw [← List.head?_reverse, hrev2]
        rfl
      have hxs : isSpaceByte x = false := hlast _ hx
      rw [List.dropWhile_cons_of_neg (by simp [hxs])]
      rw [← hrev2, List.reverse_reverse]

/-- Lowercase hexadecimal digit byte for `d < 16`. -/
def hexDigitChar (d : Nat) : Nat := if d < 10 then 48 + d else 87 + d

/-- The four hex-digit bytes of `\uXXXX`. -/
def hex4 (n : Nat) : List Nat :=
  [hexDigitChar (n / 4096 % 16), hexDigitChar (n / 256 % 16),
   hexDigitChar (n / 16 % 16), hexDigitChar (n % 16)]

/-- `json.dumps` escaping of one character (`ensure_ascii=True`): named
escapes for quote, backslash and the usual control characters, `\uXXXX` for
the remaining characters outside `0x20..0x7E`, with a surrogate pair for
supplementary-plane characters. -/
def escapeChar (c : Char) : List Nat :=
  let n := c.toNat
  if n = 92 then [92, 92]
  else if n = 34 then [92, 34]
  else if n = 8 then [92, 98]
  else if n = 12 then [92, 102]
  else if n = 10 then [92, 110]
  else if n = 13 then [92, 114]
  else if n = 9 then [92, 116]
  else if n < 32 then 92 :: 117 :: hex4 n
  else if n ≤ 126 then [n]
  else if n < 65536 then 92 :: 117 :: hex4 n
  else (92 :: 117 :: hex4 (55296 + (n - 65536) / 1024)) ++
       (92 :: 117 :: hex4 (56320 + (n - 65536) % 1024))

/-- The bytes of `str(v)` for a Python int. -/
def intBytes (v : Int) : List Nat :=
  if v < 0 then 45 :: natDigits (-v).toNat else natDigits v.toNat

/-- One `"key": value` item of the serialized frequency table. -/
def dumpItem (kv : String × Int) : List Nat :=
  34 :: (kv.1.data.flatMap escapeChar) ++ [34] ++ [58, 32] ++ intBytes kv.2

/-- The `", "`-joined items of the serialized frequency table. -/
def dumpItems : List (String × Int) → List Nat
  | [] => []
  | [kv] => dumpItem kv
  | kv :: rest => dumpItem kv ++ [44, 32] ++ dumpItems rest

/-- `json.dumps(frequency).encode('utf-8')`: with `ensure_ascii` the output is
the ASCII bytes of `{"k": v, ...}` in dict order. -/
def jsonDumps (freq : List (String × Int)) : List Nat :=
  123 :: dumpItems freq ++ [125]

/-- Value of one hexadecimal digit byte. -/
def hexVal (b : Nat) : Option Nat :=
  if 48 ≤ b ∧ b ≤ 57 then some (b - 48)
  else if 97 ≤ b ∧ b ≤ 102 then some (b - 87)
  else if 65 ≤ b ∧ b ≤ 70 then some (b - 55)
  else none

/-- The low-surrogate half `\uXXXX` that must follow a high surrogate:
returns the code unit value. -/
def parseLowSur : List Nat → Option Nat
  | b1 :: b2 :: g1 :: g2 :: g3 :: g4 :: _ =>
    if b1 = 92 ∧ b2 = 117 then
      match hexVal g1, hexVal g2, hexVal g3, hexVal g4 with
      | some e1, some e2, some e3, some e4 =>
        let u2 := ((e1 * 16 + e2) * 16 + e3) * 16 + e4
        if 56320 ≤ u2 ∧ u2 < 57344 then some u2 else none
      | _, _, _, _ => none
    else none
  | _ => none

/-- One JSON escape after a backslash: the produced character and the number
of bytes consumed (1 for named escapes, 5 for one `uXXXX`, 11 for a surrogate
pair). Lone surrogate escapes are rejected (model restriction: Lean `Char`
has no surrogates). -/
def parseEscape : List Nat → Option (Char × Nat)
  | [] => none
  | e :: rest =>
    if e = 34 then some ('"', 1)
    else if e = 92 then some ('\\', 1)
    else if e = 47 then some ('/', 1)
    else if e = 98 then some (Char.ofNat 8, 1)
    else if e = 102 then some (Char.ofNat 12, 1)
    else if e = 110 then some (Char.ofNat 10, 1)
    else if e = 114 then some (Char.ofNat 13, 1)
    else if e = 116 then some (Char.ofNat 9, 1)
    else if e = 117 then
      match rest with
      | h1 :: h2 :: h3 :: h4 :: rest2 =>
        match hexVal h1, hexVal h2, hexVal h3, hexVal h4 with
        | some d1, some d2, some d3, some d4 =>
          let u := ((d1 * 16 + d2) * 16 + d3) * 16 + d4
          if 55296 ≤ u ∧ u < 56320 then
            match parseLowSur rest2 with
            | some u2 => some (Char.ofNat (65536 + (u - 55296) * 1024 + (u2 - 56320)), 11)
            | none => none
          else if 56320 ≤ u ∧ u < 57344 then none
          else some (Char.ofNat u, 5)
        | _, _, _, _ => none
      | _ => none
    else none

/-- JSON string-body parser: consumes bytes up to the closing quote,
unescaping as `json.loads` does. The model covers the ASCII byte range that
`json.dumps(..., ensure_ascii=True)` emits (raw bytes ≥ 0x80 are rejected
rather than UTF-8 decoded). -/
def parseChars : List Nat → Option (List Char × List Nat)
  | [] => none
  | b :: rest =>
    if b = 34 then some ([], rest)
    else if b = 92 then
      match parseEscape rest with
      | some (c, k) => (parseChars (rest.drop k)).map fun pr => (c :: pr.1, pr.2)
      | none => none
    else if 32 ≤ b ∧ b ≤ 127 then
      (parseChars rest).map fun pr => (Char.ofNat b :: pr.1, pr.2)
    else none
termination_by l => l.length
decreasing_by
  · simp [List.length_drop]
    omega
  · simp

/-- JSON string parser: an opening quote then the escaped body. -/
def parseJString : List Nat → Option (String × List Nat)
  | 34 :: rest => (parseChars rest).map fun pr => (String.mk pr.1, pr.2)
  | _ => none

/-- JSON unsigned-integer parser: digits, rejecting a leading zero followed by
more digits (as `json.loads` does). -/
def parseJNat : List Nat → Option (Nat × List Nat)
  | [] => none
  | 48 :: rest =>
    match rest with
    | d :: _ => if isDigit d then none else some (0, rest)
    | [] => some (0, [])
  | b :: rest =>
    if isDigit b then
      some (digitsToNat (b :: rest.takeWhile isDigit), rest.dropWhile isDigit)
    else none

/-- JSON integer parser with optional minus sign (float forms are outside the
modelled fragment). -/
def parseJInt : List Nat → Option (Int × List Nat)
  | 45 :: rest => (parseJNat rest).map fun pr => (-(pr.1 : Int), pr.2)
  | l => (parseJNat l).map fun pr => ((pr.1 : Int), pr.2)

def skipWs (l : List Nat) : List Nat := l.dropWhile isSpaceByte

theorem length_dropWhile_le {α : Type} (l : List α) (p : α → Bool) :
    (l.dropWhile p).length ≤ l.length := by
  induction l with
  | nil => simp
  | cons a t ih =>
    rw [List.dropWhile_cons]
    split
    · simp
      omega
    · simp

theorem skipWs_length (l : List Nat) : (skipWs l).length ≤ l.length :=
  length_dropWhile_le l isSpaceByte

theorem parseChars_length :
    ∀ {l : List Nat} {pr : List Char × List Nat}, parseChars l = some pr →
      pr.2.length < l.length := by
  intro l
  induction l using parseChars.induct with
  | case1 =>
    intro pr h
    simp [parseChars] at h
  | case2 rest =>
    intro pr h
    rw [parseChars, if_pos rfl] at h
    obtain rfl := Option.some.inj h
    simp
  | case3 rest c k hesc hne ih =>
    intro pr h
    rw [parseChars, if_neg hne, if_pos rfl, hesc] at h
    simp only [Option.map_eq_some'] at h
    obtain ⟨pr', hpr', rfl⟩ := h
    have h1 := ih hpr'
    have h2 : (rest.drop k).length ≤ rest.length := by
      simp [List.length_drop]
    simp at h1 ⊢
    omega
  | case4 rest hesc hne =>
    intro pr h
    rw [parseChars, if_neg hne, if_pos rfl, hesc] at h
    exact Option.noConfusion h
  | case5 b rest h34 h92 hrange ih =>
    intro pr h
    rw [parseChars, if_neg h34, if_neg h92, if_pos hrange] at h
    simp only [Option.map_eq_some'] at h
    obtain ⟨pr', hpr', rfl⟩ := h
    have h1 := ih hpr'
    simp at h1 ⊢
    omega
  | case6 b rest h34 h92 hrange =>
    intro pr h
    rw [parseChars, if_neg h34, if_neg h92, if_neg hrange] at h
    exact Option.noConfusion h

theorem parseJString_length {l : List Nat} {pr : String × List Nat}
    (h : parseJString l = some pr) : pr.2.length < l.length := by
  match l, h with
  | 34 :: rest, h =>
    rw [parseJString] at h
    simp only [Option.map_eq_some'] at h
    obtain ⟨pr', hpr', rfl⟩ := h
    have := parseChars_length hpr'
    simp
    omega

theorem parseJNat_length {l : List Nat} {pr : Nat × List Nat}
    (h : parseJNat l = some pr) : pr.2.length ≤ l.length := by
  rw [parseJNat.eq_def] at h
  split at h
  · exact Option.noConfusion h
  · next rest =>
    split at h
    · split at h
      · exact Option.noConfusion h
      · obtain rfl := Option.some.inj h
        simp
    · obtain rfl := Option.some.inj h
      simp
  · next b rest hne =>
    split at h
    · obtain rfl := Option.some.inj h
      have := length_dropWhile_le rest isDigit
      simp
      omega
    · exact Option.noConfusion h

theorem parseJInt_length {l : List Nat} {pr : Int × List Nat}
    (h : parseJInt l = some pr) : pr.2.length ≤ l.length := by
  rw [parseJInt.eq_def] at h
  split at h
  · next rest =>
    simp only [Option.map_eq_some'] at h
    obtain ⟨pr', hpr', rfl⟩ := h
    have := parseJNat_length hpr'
    simp
    omega
  · simp only [Option.map_eq_some'] at h
    obtain ⟨pr', hpr', rfl⟩ := h
    exact parseJNat_length hpr'

/-- One or more `"key": int` entries followed by the closing `}`; returns the
entries in text order and the bytes after the brace. The fuel argument is a
termination device only: every loop iteration consumes at least three bytes,
and the caller passes the input length, so fuel never runs out before the
parse naturally ends. -/
def parseEntriesF : Nat → List Nat → Option (List (String × Int) × List Nat)
  | 0, _ => none
  | fuel + 1, l =>
    match parseJString l with
    | none => none
    | some (k, r1) =>
      match skipWs r1 with
      | 58 :: r3 =>
        match parseJInt (skipWs r3) with
        | none => none
        | some (v, r5) =>
          match skipWs r5 with
          | 44 :: r7 =>
            match parseEntriesF fuel (skipWs r7) with
            | some (es, r8) => some ((k, v) :: es, r8)
            | none => none
          | 125 :: r7 => some ([(k, v)], r7)
          | _ => none
      | _ => none

def parseEntries (l : List Nat) : Option (List (String × Int) × List Nat) :=
  parseEntriesF (l.length + 1) l

/-- `json.loads(line.decode('utf-8'))` on the frequency-table line, for the
JSON-object-of-integers fragment `json.dumps` emits: whitespace-tolerant
`{"key": int, ...}`, built into a dict with Python insertion/update
semantics. `none` models `json.JSONDecodeError`. -/
def jsonLoads (l : List Nat) : Option (List (String × Int)) :=
  match skipWs l with
  | 123 :: rest =>
    match skipWs rest with
    | 125 :: rest2 => if skipWs rest2 = [] then some [] else none
    | r =>
      match parseEntries r with
      | some (entries, r2) =>
        if skipWs r2 = [] then
          some (entries.foldl (fun d e => assocSet d e.1 e.2) [])
        else none
      | none => none
  | _ => none

theorem hexVal_hexDigitChar (d : Nat) (h : d < 16) : hexVal (hexDigitChar d) = some d := by
  unfold hexVal hexDigitChar
  split_ifs <;> simp_all <;> omega

theorem hex4_val (n : Nat) (h : n < 65536) :
    ((n / 4096 % 16 * 16 + n / 256 % 16) * 16 + n / 16 % 16) * 16 + n % 16 = n := by
  omega

theorem parseEscape_u (n : Nat) (rest : List Nat) (hlt : n < 65536)
    (hns : n < 55296 ∨ 57344 ≤ n) :
    parseEscape (117 :: hex4 n ++ rest) = some (Char.ofNat n, 5) := by
  show parseEscape (117 :: hexDigitChar (n / 4096 % 16) :: hexDigitChar (n / 256 % 16) ::
    hexDigitChar (n / 16 % 16) :: hexDigitChar (n % 16) :: rest) = some (Char.ofNat n, 5)
  rw [parseEscape]
  rw [if_neg (by decide), if_neg (by decide), if_neg (by decide), if_neg (by decide),
      if_neg (by decide), if_neg (by decide), if_neg (by decide), if_neg (by decide),
      if_pos rfl]
  rw [hexVal_hexDigitChar _ (Nat.mod_lt _ (by omega)),
      hexVal_hexDigitChar _ (Nat.mod_lt _ (by omega)),
      hexVal_hexDigitChar _ (Nat.mod_lt _ (by omega)),
      hexVal_hexDigitChar _ (Nat.mod_lt _ (by omega))]
  simp only [hex4_val n hlt]
  rw [if_neg (by omega), if_neg (by omega)]

theorem parseLowSur_hex4 (u2 : Nat) (rest : List Nat) (h1 : 56320 ≤ u2) (h2 : u2 < 57344) :
    parseLowSur (92 :: 117 :: hex4 u2 ++ rest) = some u2 := by
  show parseLowSur (92 :: 117 :: hexDigitChar (u2 / 4096 % 16) :: hexDigitChar (u2 / 256 % 16) ::
    hexDigitChar (u2 / 16 % 16) :: hexDigitChar (u2 % 16) :: rest) = some u2
  rw [parseLowSur]
  rw [if_pos (by simp)]
  rw [hexVal_hexDigitChar _ (Nat.mod_lt _ (by omega)),
      hexVal_hexDigitChar _ (Nat.mod_lt _ (by omega)),
      hexVal_hexDigitChar _ (Nat.mod_lt _ (by omega)),
      hexVal_hexDigitChar _ (Nat.mod_lt _ (by omega))]
  simp only [hex4_val u2 (by omega)]
  rw [if_pos (by omega)]

theorem parseEscape_pair (n : Nat) (rest : List Nat) (h1 : 65536 ≤ n) (h2 : n < 1114112) :
    parseEscape ((117 :: hex4 (55296 + (n - 65536) / 1024)) ++
      (92 :: 117 :: hex4 (56320 + (n - 65536) % 1024)) ++ rest) = some (Char.ofNat n, 11) := by
  have hq : (n - 65536) / 1024 < 1024 := by omega
  have hr : (n - 65536) % 1024 < 1024 := by omega
  have hult : 55296 + (n - 65536) / 1024 < 65536 := by omega
  show parseEscape (117 :: hexDigitChar ((55296 + (n - 65536) / 1024) / 4096 % 16) ::
    hexDigitChar ((55296 + (n - 65536) / 1024) / 256 % 16) ::
    hexDigitChar ((55296 + (n - 65536) / 1024) / 16 % 16) ::
    hexDigitChar ((55296 + (n - 65536) / 1024) % 16) ::
    (92 :: 117 :: hex4 (56320 + (n - 65536) % 1024) ++ rest)) = some (Char.ofNat n, 11)
  rw [parseEscape]
  rw [if_neg (by decide), if_neg (by decide), if_neg (by decide), if_neg (by decide),
      if_neg (by decide), if_neg (by decide), if_neg (by decide), if_neg (by decide),
      if_pos rfl]
  rw [hexVal_hexDigitChar _ (Nat.mod_lt _ (by omega)),
      hexVal_hexDigitChar _ (Nat.mod_lt _ (by omega)),
      hexVal_hexDigitChar _ (Nat.mod_lt _ (by omega)),
      hexVal_hexDigitChar _ (Nat.mod_lt _ (by omega))]
  simp only [hex4_val _ hult]
  rw [if_pos (by omega)]
  rw [parseLowSur_hex4 (56320 + (n - 65536) % 1024) rest (by omega) (by omega)]
  show some (Char.ofNat (65536 + (55296 + (n - 65536) / 1024 - 55296) * 1024 +
    (56320 + (n - 65536) % 1024 - 56320)), 11) = some (Char.ofNat n, 11)
  have harith : 65536 + (55296 + (n - 65536) / 1024 - 55296) * 1024 +
      (56320 + (n - 65536) % 1024 - 56320) = n := by omega
  rw [harith]

theorem parseChars_step_escape (x : Nat) (tl : List Nat) (ch : Char) (k : Nat)
    (hesc : parseEscape (x :: tl) = some (ch, k)) :
    parseChars (92 :: x :: tl) =
      (parseChars ((x :: tl).drop k)).map fun pr => (ch :: pr.1, pr.2) := by
  rw [parseChars]
  rw [if_neg (by decide), if_pos rfl, hesc]

/-- Parsing one escaped character undoes `json.dumps`' escaping. -/
theorem parseChars_escapeChar (c : Char) (rest : List Nat) :
    parseChars (escapeChar c ++ rest) = (parseChars rest).map fun pr => (c :: pr.1, pr.2) := by
  have hval : c.toNat < 55296 ∨ (57344 ≤ c.toNat ∧ c.toNat < 1114112) := c.valid
  have hofn : ∀ m : Nat, c.toNat = m → Char.ofNat m = c := by
    intro m hm
    rw [← hm]
    exact Char.ofNat_toNat c
  simp only [escapeChar]
  split_ifs with h1 h2 h3 h4 h5 h6 h7 h8 h9 h10
  · rw [List.cons_append, List.cons_append, List.nil_append,
      parseChars_step_escape 92 rest '\\' 1 rfl]
    rw [List.drop_one, List.tail_cons]
    rw [show ('\\' : Char) = c from hofn 92 h1 ▸ rfl]
  · rw [List.cons_append, List.cons_append, List.nil_append,
      parseChars_step_escape 34 rest '"' 1 rfl]
    rw [List.drop_one, List.tail_cons]
    rw [show ('"' : Char) = c from hofn 34 h2 ▸ rfl]
  · rw [List.cons_append, List.cons_append, List.nil_append,
      parseChars_step_escape 98 rest (Char.ofNat 8) 1 rfl]
    rw [List.drop_one, List.tail_cons, hofn 8 h3]
  · rw [List.cons_append, List.cons_append, List.nil_append,
      parseChars_step_escape 102 rest (Char.ofNat 12) 1 rfl]
    rw [List.drop_one, List.tail_cons, hofn 12 h4]
  · rw [List.cons_append, List.cons_append, List.nil_append,
      parseChars_step_escape 110 rest (Char.ofNat 10) 1 rfl]
    rw [List.drop_one, List.tail_cons, hofn 10 h5]
  · rw [List.cons_append, List.cons_append, List.nil_append,
      parseChars_step_escape 114 rest (Char.ofNat 13) 1 rfl]
    rw [List.drop_one, List.tail_cons, hofn 13 h6]
  · rw [List.cons_append, List.cons_append, List.nil_append,
      parseChars_step_escape 116 rest (Char.ofNat 9) 1 rfl]
    rw [List.drop_one, List.tail_cons, hofn 9 h7]
  · rw [List.cons_append, List.cons_append]
    have happ : hex4 c.toNat ++ rest =
        hexDigitChar (c.toNat / 4096 % 16) :: hexDigitChar (c.toNat / 256 % 16) ::
        hexDigitChar (c.toNat / 16 % 16) :: hexDigitChar (c.toNat % 16) :: rest := rfl
    rw [happ]
    rw [parseChars_step_escape 117 _ (Char.ofNat c.toNat) 5
      (by
        have := parseEscape_u c.toNat rest (by omega) (by omega)
        rw [show (117 :: hex4 c.toNat ++ rest) = 117 :: hexDigitChar (c.toNat / 4096 % 16) ::
          hexDigitChar (c.toNat / 256 % 16) :: hexDigitChar (c.toNat / 16 % 16) ::
          hexDigitChar (c.toNat % 16) :: rest from rfl] at this
        exact this)]
    rw [Char.ofNat_toNat c]
    rfl
  · rw [List.singleton_append, parseChars]
    rw [if_neg (by omega), if_neg (by omega), if_pos (by omega), Char.ofNat_toNat c]
  · rw [List.cons_append, List.cons_append]
    have hns : c.toNat < 55296 ∨ 57344 ≤ c.toNat := by
      rcases hval with h | h
      · exact Or.inl h
      · exact Or.inr h.1
    have happ : hex4 c.toNat ++ rest =
        hexDigitChar (c.toNat / 4096 % 16) :: hexDigitChar (c.toNat / 256 % 16) ::
        hexDigitChar (c.toNat / 16 % 16) :: hexDigitChar (c.toNat % 16) :: rest := rfl
    rw [happ]
    rw [parseChars_step_escape 117 _ (Char.ofNat c.toNat) 5
      (by
        have := parseEscape_u c.toNat rest h10 hns
        rw [show (117 :: hex4 c.toNat ++ rest) = 117 :: hexDigitChar (c.toNat / 4096 % 16) ::
          hexDigitChar (c.toNat / 256 % 16) :: hexDigitChar (c.toNat / 16 % 16) ::
          hexDigitChar (c.toNat % 16) :: rest from rfl] at this
        exact this)]
    rw [Char.ofNat_toNat c]
    rfl
  · have hge : 65536 ≤ c.toNat := by omega
    have hlt2 : c.toNat < 1114112 := by
      rcases hval with h | h
      · omega
      · exact h.2
    have hp := parseEscape_pair c.toNat rest hge hlt2
    have hlist : ((92 :: 117 :: hex4 (55296 + (c.toNat - 65536) / 1024)) ++
        (92 :: 117 :: hex4 (56320 + (c.toNat - 65536) % 1024))) ++ rest =
        92 :: ((117 :: hex4 (55296 + (c.toNat - 65536) / 1024)) ++
          (92 :: 117 :: hex4 (56320 + (c.toNat - 65536) % 1024)) ++ rest) := by
      simp
    rw [hlist]
    rw [show (117 :: hex4 (55296 + (c.toNat - 65536) / 1024)) ++
        (92 :: 117 :: hex4 (56320 + (c.toNat - 65536) % 1024)) ++ rest =
        117 :: (hex4 (55296 + (c.toNat - 65536) / 1024) ++
          (92 :: 117 :: hex4 (56320 + (c.toNat - 65536) % 1024) ++ rest)) from by simp]
    rw [parseChars_step_escape 117 _ (Char.ofNat c.toNat) 11
      (by
        have h2 := hp
        rw [show (117 :: hex4 (55296 + (c.toNat - 65536) / 1024)) ++
          (92 :: 117 :: hex4 (56320 + (c.toNat - 65536) % 1024)) ++ rest =
          117 :: (hex4 (55296 + (c.toNat - 65536) / 1024) ++
            (92 :: 117 :: hex4 (56320 + (c.toNat - 65536) % 1024) ++ rest)) from by simp] at h2
        exact h2)]
    rw [Char.ofNat_toNat c]
    rfl

/-- Parsing the escaped body of a dumped string recovers its characters. -/
theorem parseChars_flatMap (cs : List Char) (rest : List Nat) :
    parseChars (cs.flatMap escapeChar ++ (34 :: rest)) = some (cs, rest) := by
  induction cs with
  | nil =>
    rw [List.flatMap_nil, List.nil_append, parseChars, if_pos rfl]
  | cons c t ih =>
    rw [List.flatMap_cons, List.append_assoc, parseChars_escapeChar, ih]
    rfl

/-- Parsing a dumped string literal recovers the string. -/
theorem parseJString_dump (k : String) (rest : List Nat) :
    parseJString ((34 :: k.data.flatMap escapeChar ++ [34]) ++ rest) = some (k, rest) := by
  have hshape : (34 :: k.data.flatMap escapeChar ++ [34]) ++ rest =
      34 :: (k.data.flatMap escapeChar ++ (34 :: rest)) := by simp
  rw [hshape, parseJString, parseChars_flatMap]
  show some (String.mk k.data, rest) = some (k, rest)
  rfl

theorem takeWhile_append_all {α : Type} (p : α → Bool) (a b : List α)
    (h : ∀ x ∈ a, p x) : (a ++ b).takeWhile p = a ++ b.takeWhile p := by
  induction a with
  | nil => simp
  | cons x t ih =>
    rw [List.cons_append, List.takeWhile_cons_of_pos (h x (List.mem_cons_self _ _))]
    rw [ih (fun y hy => h y (List.mem_cons_of_mem _ hy))]
    rfl

theorem dropWhile_append_all {α : Type} (p : α → Bool) (a b : List α)
    (h : ∀ x ∈ a, p x) : (a ++ b).dropWhile p = b.dropWhile p := by
  induction a with
  | nil => simp
  | cons x t ih =>
    rw [List.cons_append, List.dropWhile_cons_of_pos (h x (List.mem_cons_self _ _))]
    exact ih (fun y hy => h y (List.mem_cons_of_mem _ hy))

theorem takeWhile_neg_head {α : Type} (p : α → Bool) (l : List α)
    (h : ∀ x, l.head? = some x → p x = false) : l.takeWhile p = [] := by
  cases l with
  | nil => rfl
  | cons x t => exact List.takeWhile_cons_of_neg (by simp [h x rfl])

theorem dropWhile_neg_head {α : Type} (p : α → Bool) (l : List α)
    (h : ∀ x, l.head? = some x → p x = false) : l.dropWhile p = l := by
  cases l with
  | nil => rfl
  | cons x t => exact List.dropWhile_cons_of_neg (by simp [h x rfl])

theorem natDigits_head_ge (n : Nat) (h : 1 ≤ n) :
    ∀ b, (natDigits n).head? = some b → 49 ≤ b ∧ b ≤ 57 := by
  induction n using natDigits.induct with
  | case1 n hlt =>
    intro b hb
    rw [natDigits, if_pos hlt] at hb
    obtain rfl := Option.some.inj hb
    omega
  | case2 n hlt ih =>
    intro b hb
    rw [natDigits, if_neg hlt] at hb
    have hne := natDigits_ne_nil (n / 10)
    rw [List.head?_append_of_ne_nil _ hne] at hb
    exact ih (by omega) b hb

/-- Parsing the decimal dump of `n` stops at the first non-digit. -/
theorem parseJNat_natDigits (n : Nat) (rest : List Nat)
    (hrest : ∀ d, rest.head? = some d → isDigit d = false) :
    parseJNat (natDigits n ++ rest) = some (n, rest) := by
  by_cases hz : n = 0
  · subst hz
    rw [show natDigits 0 = [48] from by rw [natDigits]; simp, List.singleton_append]
    rw [parseJNat.eq_def]
    cases rest with
    | nil => rfl
    | cons d r2 =>
      simp only
      rw [if_neg (by simp [hrest d rfl])]
  · have hhead := natDigits_head_ge n (by omega)
    match hnd : natDigits n with
    | [] => exact absurd hnd (natDigits_ne_nil n)
    | b :: ds =>
      have hb : 49 ≤ b ∧ b ≤ 57 := hhead b (by rw [hnd]; rfl)
      have hall : (b :: ds).all isDigit := hnd ▸ natDigits_all_digits n
      have hdall : ∀ x ∈ ds, isDigit x = true := by
        intro x hx
        have := (List.all_eq_true.1 hall) x (List.mem_cons_of_mem _ hx)
        exact this
      rw [List.cons_append, parseJNat.eq_def]
      split
      · next heq => simp at heq
      · next rest0 heq =>
        exfalso
        have hbeq : b = 48 := (List.cons.injEq .. ▸ heq).1
        omega
      · next b2 rest2 hne48 heq =>
        have h1 : b = b2 := (List.cons.injEq .. ▸ heq).1
        have h2 : ds ++ rest = rest2 := (List.cons.injEq .. ▸ heq).2
        subst h1
        subst h2
        rw [if_pos (by simp [isDigit]; omega)]
        rw [takeWhile_append_all _ _ _ hdall, dropWhile_append_all _ _ _ hdall]
        rw [takeWhile_neg_head _ _ hrest, dropWhile_neg_head _ _ hrest]
        rw [List.append_nil]
        have hval : digitsToNat (b :: ds) = n := by
          rw [← hnd]
          exact digitsToNat_natDigits n
        rw [hval]

/-- Parsing the dump of a Python int recovers it. -/
theorem parseJInt_intBytes (v : Int) (rest : List Nat)
    (hrest : ∀ d, rest.head? = some d → isDigit d = false) :
    parseJInt (intBytes v ++ rest) = some (v, rest) := by
  unfold intBytes
  split
  · next hneg =>
    rw [List.cons_append, parseJInt, parseJNat_natDigits _ _ hrest]
    simp only [Option.map_some']
    congr 1
    rw [Prod.mk.injEq]
    refine ⟨?_, rfl⟩
    omega
  · next hpos =>
    have hhead : ∀ b, (natDigits v.toNat ++ rest).head? = some b → 48 ≤ b ∧ b ≤ 57 := by
      intro b hb
      have hne := natDigits_ne_nil v.toNat
      rw [List.head?_append_of_ne_nil _ hne] at hb
      have := natDigits_all_digits v.toNat
      match hnd : natDigits v.toNat, hb with
      | d :: ds, hb =>
        rw [hnd] at this
        have hd : d = b := Option.some.inj hb
        subst hd
        have hdig := (List.all_eq_true.1 this) d (List.mem_cons_self _ _)
        simp [isDigit] at hdig
        omega
    rw [parseJInt.eq_def]
    split
    · next heq =>
      exfalso
      match hl : natDigits v.toNat ++ rest, heq with
      | 45 :: r, heq =>
        have := hhead 45 (by rw [hl]; rfl)
        omega
    · rw [parseJNat_natDigits _ _ hrest]
      simp only [Option.map_some']
      congr 1
      rw [Prod.mk.injEq]
      refine ⟨?_, rfl⟩
      omega

theorem skipWs_cons_nonspace (b : Nat) (l : List Nat) (h : isSpaceByte b = false) :
    skipWs (b :: l) = b :: l :=
  List.dropWhile_cons_of_neg (by simp [h])

theorem skipWs_cons_space (b : Nat) (l : List Nat) (h : isSpaceByte b = true) :
    skipWs (b :: l) = skipWs l :=
  List.dropWhile_cons_of_pos (by simp [h])

theorem skipWs_of_head (l : List Nat) (h : ∀ b, l.head? = some b → isSpaceByte b = false) :
    skipWs l = l :=
  dropWhile_neg_head _ _ h

theorem intBytes_ne_nil (v : Int) : intBytes v ≠ [] := by
  unfold intBytes
  split
  · simp
  · exact natDigits_ne_nil _

theorem intBytes_head (v : Int) :
    ∀ b, (intBytes v).head? = some b → b = 45 ∨ (48 ≤ b ∧ b ≤ 57) := by
  intro b hb
  unfold intBytes at hb
  split at hb
  · obtain rfl := Option.some.inj hb
    exact Or.inl rfl
  · right
    have hall := natDigits_all_digits v.toNat
    match hnd : natDigits v.toNat, hb with
    | d :: ds, hb =>
      rw [hnd] at hall
      have hd : d = b := Option.some.inj hb
      subst hd
      have := (List.all_eq_true.1 hall) d (List.mem_cons_self _ _)
      simp [isDigit] at this
      omega

theorem intBytes_append_head (v : Int) (x : List Nat) :
    ∀ b, (intBytes v ++ x).head? = some b → b = 45 ∨ (48 ≤ b ∧ b ≤ 57) := by
  intro b hb
  rw [List.head?_append_of_ne_nil _ (intBytes_ne_nil v)] at hb
  exact intBytes_head v b hb

theorem dumpItems_cons_shape (kv : String × Int) (t : List (String × Int)) :
    ∃ tl, dumpItems (kv :: t) = 34 :: tl := by
  cases t with
  | nil => exact ⟨_, rfl⟩
  | cons kv2 t2 => exact ⟨_, rfl⟩

theorem parseEntriesF_dump :
    ∀ (freq : List (String × Int)) (fuel : Nat) (rest : List Nat),
      freq ≠ [] → freq.length ≤ fuel →
      parseEntriesF fuel (dumpItems freq ++ (125 :: rest)) = some (freq, rest) := by
  intro freq
  induction freq with
  | nil =>
    intro fuel rest h
    exact absurd rfl h
  | cons kv t ih =>
    intro fuel rest _ hfuel
    match fuel, hfuel with
    | f + 1, hfuel =>
    have hjint : ∀ (tail : List Nat) (hd : Nat), isDigit hd = false →
        parseJInt (skipWs (32 :: (intBytes kv.2 ++ (hd :: tail)))) =
          some (kv.2, hd :: tail) := by
      intro tail hd hhd
      rw [skipWs_cons_space 32 _ (by decide)]
      rw [skipWs_of_head _ (fun b hb => by
        rcases intBytes_append_head kv.2 _ b hb with rfl | hb2
        · decide
        · simp [isSpaceByte]
          omega)]
      exact parseJInt_intBytes kv.2 _ (fun d hd2 => by
        obtain rfl := Option.some.inj hd2
        exact hhd)
    cases t with
    | nil =>
      rw [show dumpItems [kv] = dumpItem kv from rfl]
      have hshape : dumpItem kv ++ (125 :: rest) =
          (34 :: kv.1.data.flatMap escapeChar ++ [34]) ++
            (58 :: 32 :: (intBytes kv.2 ++ (125 :: rest))) := by
        simp [dumpItem]
      rw [parseEntriesF, hshape, parseJString_dump]
      simp only []
      rw [skipWs_cons_nonspace 58 _ (by decide)]
      simp only []
      rw [hjint rest 125 (by decide)]
      simp only []
      rw [skipWs_cons_nonspace 125 _ (by decide)]
    | cons kv2 t2 =>
      rw [show dumpItems (kv :: kv2 :: t2) = dumpItem kv ++ [44, 32] ++ dumpItems (kv2 :: t2)
        from rfl]
      have hshape : (dumpItem kv ++ [44, 32] ++ dumpItems (kv2 :: t2)) ++ (125 :: rest) =
          (34 :: kv.1.data.flatMap escapeChar ++ [34]) ++
            (58 :: 32 :: (intBytes kv.2 ++
              (44 :: 32 :: (dumpItems (kv2 :: t2) ++ (125 :: rest))))) := by
        simp [dumpItem]
      rw [parseEntriesF, hshape, parseJString_dump]
      simp only []
      rw [skipWs_cons_nonspace 58 _ (by decide)]
      simp only []
      rw [hjint _ 44 (by decide)]
      simp only []
      rw [skipWs_cons_nonspace 44 _ (by decide)]
      simp only []
      rw [skipWs_cons_space 32 _ (by decide)]
      obtain ⟨tl, htl⟩ := dumpItems_cons_shape kv2 t2
      rw [show skipWs (dumpItems (kv2 :: t2) ++ (125 :: rest)) =
          dumpItems (kv2 :: t2) ++ (125 :: rest) from
        skipWs_of_head _ (fun b hb => by
          rw [htl] at hb
          obtain rfl := Option.some.inj hb
          decide)]
      rw [ih f rest (by simp) (by
        simp only [List.length_cons] at hfuel ⊢
        omega)]

theorem hexDigitChar_range (d : Nat) (h : d < 16) :
    48 ≤ hexDigitChar d ∧ hexDigitChar d ≤ 102 := by
  unfold hexDigitChar
  split <;> omega

theorem hex4_range (n : Nat) : ∀ b ∈ hex4 n, 48 ≤ b ∧ b ≤ 102 := by
  intro b hb
  unfold hex4 at hb
  simp only [List.mem_cons, List.mem_singleton] at hb
  rcases hb with rfl | rfl | rfl | rfl | h
  · exact hexDigitChar_range _ (Nat.mod_lt _ (by omega))
  · exact hexDigitChar_range _ (Nat.mod_lt _ (by omega))
  · exact hexDigitChar_range _ (Nat.mod_lt _ (by omega))
  · exact hexDigitChar_range _ (Nat.mod_lt _ (by omega))
  · simp at h

theorem escapeChar_range (c : Char) : ∀ b ∈ escapeChar c, 32 ≤ b ∧ b ≤ 126 := by
  intro b hb
  simp only [escapeChar] at hb
  split_ifs at hb with h1 h2 h3 h4 h5 h6 h7 h8 h9 h10
  · simp at hb; omega
  · simp at hb; omega
  · simp at hb; omega
  · simp at hb; omega
  · simp at hb; omega
  · simp at hb; omega
  · simp at hb; omega
  · simp only [List.mem_cons] at hb
    rcases hb with rfl | rfl | hb
    · omega
    · omega
    · have := hex4_range _ _ hb
      omega
  · simp only [List.mem_singleton] at hb
    subst hb
    omega
  · simp only [List.mem_cons] at hb
    rcases hb with rfl | rfl | hb
    · omega
    · omega
    · have := hex4_range _ _ hb
      omega
  · simp only [List.mem_append, List.mem_cons] at hb
    rcases hb with (rfl | rfl | hb) | (rfl | rfl | hb)
    · omega
    · omega
    · have := hex4_range _ _ hb
      omega
    · omega
    · omega
    · have := hex4_range _ _ hb
      omega

theorem intBytes_range (v : Int) : ∀ b ∈ intBytes v, 45 ≤ b ∧ b ≤ 57 := by
  intro b hb
  unfold intBytes at hb
  have hdig : ∀ (n : Nat), b ∈ natDigits n → 45 ≤ b ∧ b ≤ 57 := by
    intro n hn
    have := (List.all_eq_true.1 (natDigits_all_digits n)) b hn
    simp [isDigit] at this
    omega
  split at hb
  · rcases List.mem_cons.1 hb with rfl | hb2
    · omega
    · exact hdig _ hb2
  · exact hdig _ hb

theorem dumpItem_range (kv : String × Int) : ∀ b ∈ dumpItem kv, 32 ≤ b ∧ b ≤ 126 := by
  intro b hb
  unfold dumpItem at hb
  rcases List.mem_cons.1 hb with rfl | hb1
  · omega
  rcases List.mem_append.1 hb1 with hb2 | hint
  · rcases List.mem_append.1 hb2 with hb3 | h58
    · rcases List.mem_append.1 hb3 with hflat | h34
      · obtain ⟨c, _, hc⟩ := List.mem_flatMap.1 hflat
        exact escapeChar_range c b hc
      · simp at h34
        omega
    · simp at h58
      rcases h58 with rfl | rfl <;> omega
  · have := intBytes_range kv.2 b hint
    omega

theorem dumpItems_range (freq : List (String × Int)) :
    ∀ b ∈ dumpItems freq, 32 ≤ b ∧ b ≤ 126 := by
  induction freq with
  | nil => intro b hb; simp [dumpItems] at hb
  | cons kv t ih =>
    intro b hb
    cases t with
    | nil => exact dumpItem_range kv b hb
    | cons kv2 t2 =>
      rw [show dumpItems (kv :: kv2 :: t2) = dumpItem kv ++ [44, 32] ++ dumpItems (kv2 :: t2)
        from rfl] at hb
      rcases List.mem_append.1 hb with hb1 | hb3
      · rcases List.mem_append.1 hb1 with hb2 | hc
        · exact dumpItem_range kv b hb2
        · simp at hc
          rcases hc with rfl | rfl <;> omega
      · exact ih b hb3

theorem jsonDumps_range (freq : List (String × Int)) :
    ∀ b ∈ jsonDumps freq, 32 ≤ b ∧ b ≤ 126 := by
  intro b hb
  unfold jsonDumps at hb
  rcases List.mem_cons.1 hb with rfl | hb1
  · omega
  rcases List.mem_append.1 hb1 with hb2 | h125
  · exact dumpItems_range freq b hb2
  · simp at h125
    omega

theorem jsonDumps_no_newline (freq : List (String × Int)) : 10 ∉ jsonDumps freq := by
  intro h
  have := jsonDumps_range freq 10 h
  omega

theorem dumpItems_length_ge (freq : List (String × Int)) :
    freq.length ≤ (dumpItems freq).length := by
  induction freq with
  | nil => simp [dumpItems]
  | cons kv t ih =>
    cases t with
    | nil =>
      rw [show dumpItems [kv] = dumpItem kv from rfl]
      unfold dumpItem
      simp
    | cons kv2 t2 =>
      rw [show dumpItems (kv :: kv2 :: t2) = dumpItem kv ++ [44, 32] ++ dumpItems (kv2 :: t2)
        from rfl]
      simp only [List.length_append, List.length_cons] at ih ⊢
      omega

/-- Loading the dumped frequency table gives back the table (the keys of a
Python dict are distinct). -/
theorem jsonLoads_jsonDumps (freq : List (String × Int))
    (hnd : (freq.map Prod.fst).Nodup) : jsonLoads (jsonDumps freq) = some freq := by
  rw [jsonLoads, jsonDumps, List.cons_append]
  rw [skipWs_cons_nonspace 123 _ (by decide)]
  simp only []
  cases freq with
  | nil =>
    rw [show dumpItems [] = [] from rfl, List.nil_append]
    rw [skipWs_cons_nonspace 125 _ (by decide)]
    rfl
  | cons kv t =>
    obtain ⟨tl, htl⟩ := dumpItems_cons_shape kv t
    rw [htl, List.cons_append]
    rw [skipWs_cons_nonspace 34 _ (by decide)]
    simp only []
    rw [show (34 : Nat) :: (tl ++ [125]) = dumpItems (kv :: t) ++ (125 :: []) from by
      rw [htl]
      simp]
    rw [parseEntries]
    rw [parseEntriesF_dump (kv :: t) _ [] (by simp) (by
      have h1 := dumpItems_length_ge (kv :: t)
      simp only [List.length_append, List.length_cons] at h1 ⊢
      omega)]
    simp only []
    rw [show skipWs [] = [] from rfl, if_pos rfl]
    rw [foldl_assocSet_fresh (kv :: t) [] (by simpa using hnd)]
    rw [List.nil_append]

/-- `padding = 8 - (len(encoded_bits) % 8); if padding == 8: padding = 0`. -/
def paddingOf (bitlen : Nat) : Nat :=
  let p := 8 - bitlen % 8
  if p = 8 then 0 else p

/-- `compress_to_file(text, out)`: the value returned (total body bits
written) together with the bytes written to the output file — `none` when the
guard `if not text` returns early without opening the file. `codes[char]`
cannot raise `KeyError` because every character of the text is a key of the
codebook (proved in the round-trip development); its lookup is modelled with
a default. -/
def compress_to_file (text : List Char) : Nat × Option (List Nat) :=
  if text = [] then (0, none)
  else
    let rootfreq := build_huffman_tree text
    let frequency := rootfreq.2
    let codes := build_codes rootfreq.1 "" []
    let codes := if frequency.length = 1 then
        (match frequency with
         | (k, _) :: _ => assocSet codes k "0"
         | [] => codes)
      else codes
    let encoded_bits :=
      text.foldl (fun acc c => acc ++ ((assocGet codes (String.singleton c)).getD "")) ""
    let padding := paddingOf encoded_bits.length
    let padded_bits := encoded_bits ++ String.mk (List.replicate padding '0')
    let byte_array := bitsToBytes padded_bits.data
    let file := jsonDumps frequency ++ (10 :: (natDigits padding ++ (10 :: byte_array)))
    (byte_array.length * 8, some file)

/-- Python `char * count` (the empty string when the count is not positive). -/
def strRepeat (s : String) (n : Int) : String :=
  String.join (List.replicate n.toNat s)

/-- `decompress_from_file(f)` on the bytes of the file: parse the two header
lines (`return ""` on a parse failure, as the `except` clause does), rebuild
the tree, strip the padding and walk the tree. `none` models an uncaught
exception (the walk stepping into an absent child). -/
def decompress_from_file (file : List Nat) : Option String :=
  let pr1 := readline file
  let pr2 := readline pr1.2
  let frequency_line := bstrip pr1.1
  let padding_line := bstrip pr2.1
  match jsonLoads frequency_line, parseIntBytes padding_line with
  | some frequency, some padding =>
    (match build_tree_from_frequency frequency with
     | none => some ""
     | some root =>
       let compressed_data := pr2.2
       let bit_string := compressed_data.flatMap byteBits
       let bit_string :=
         if padding > 0 then bit_string.take (bit_string.length - padding.toNat)
         else bit_string
       if frequency.length = 1 then
         match frequency with
         | (ch, cnt) :: _ => some (strRepeat ch cnt)
         | [] => some ""
       else
         (treeWalk root bit_string root []).map String.join)
  | _, _ => some ""

theorem bump_keys_mem {l : List (String × Int)} {k k' : String} :
    k' ∈ (bump l k).map Prod.fst ↔ k' ∈ l.map Prod.fst ∨ k' = k := by
  induction l with
  | nil => simp [bump]
  | cons hd t ih =>
    obtain ⟨k0, v0⟩ := hd
    by_cases hk : k0 = k
    · subst hk
      rw [show bump ((k0, v0) :: t) k0 = (k0, v0 + 1) :: t from by rw [bump, if_pos rfl]]
      simp only [List.map_cons, List.mem_cons]
      tauto
    · rw [show bump ((k0, v0) :: t) k = (k0, v0) :: bump t k from by rw [bump, if_neg hk]]
      simp only [List.map_cons, List.mem_cons, ih]
      tauto

theorem bump_keys_nodup {l : List (String × Int)} {k : String}
    (h : (l.map Prod.fst).Nodup) : ((bump l k).map Prod.fst).Nodup := by
  induction l with
  | nil => simp [bump]
  | cons hd t ih =>
    obtain ⟨k0, v0⟩ := hd
    simp only [List.map_cons, List.nodup_cons] at h
    by_cases hk : k0 = k
    · subst hk
      rw [show bump ((k0, v0) :: t) k0 = (k0, v0 + 1) :: t from by rw [bump, if_pos rfl]]
      simp only [List.map_cons, List.nodup_cons]
      exact ⟨h.1, h.2⟩
    · rw [show bump ((k0, v0) :: t) k = (k0, v0) :: bump t k from by rw [bump, if_neg hk]]
      simp only [List.map_cons, List.nodup_cons]
      refine ⟨?_, ih h.2⟩
      intro hc
      rcases bump_keys_mem.1 hc with hmem | rfl
      · exact h.1 hmem
      · exact hk rfl

theorem counter_keys_nodup (text : List Char) : ((counter text).map Prod.fst).Nodup := by
  unfold counter
  generalize hacc : ([] : List (String × Int)) = acc
  have hnd : (acc.map Prod.fst).Nodup := by rw [← hacc]; simp
  clear hacc
  induction text generalizing acc with
  | nil => exact hnd
  | cons c t ih => exact ih _ (bump_keys_nodup hnd)

theorem foldl_bump_keys_mem (text : List Char) :
    ∀ (acc : List (String × Int)) (k : String),
      k ∈ ((text.foldl (fun a c => bump a (String.singleton c)) acc).map Prod.fst) ↔
        k ∈ acc.map Prod.fst ∨ ∃ c ∈ text, String.singleton c = k := by
  induction text with
  | nil => intro acc k; simp
  | cons c t ih =>
    intro acc k
    rw [List.foldl_cons, ih]
    rw [bump_keys_mem]
    constructor
    · rintro ((h | rfl) | h)
      · exact Or.inl h
      · exact Or.inr ⟨c, List.mem_cons_self _ _, rfl⟩
      · obtain ⟨c2, hc2, rfl⟩ := h
        exact Or.inr ⟨c2, List.mem_cons_of_mem _ hc2, rfl⟩
    · rintro (h | ⟨c2, hc2, rfl⟩)
      · exact Or.inl (Or.inl h)
      · rcases List.mem_cons.1 hc2 with rfl | hc3
        · exact Or.inl (Or.inr rfl)
        · exact Or.inr ⟨c2, hc3, rfl⟩

theorem counter_mem {text : List Char} {c : Char} (hc : c ∈ text) :
    String.singleton c ∈ (counter text).map Prod.fst := by
  unfold counter
  rw [foldl_bump_keys_mem]
  exact Or.inr ⟨c, hc, rfl⟩

theorem counter_ne_nil {text : List Char} (h : text ≠ []) : counter text ≠ [] := by
  match text, h with
  | c :: t, h =>
    intro hcon
    have := @counter_mem (c :: t) c (List.mem_cons_self c t)
    rw [hcon] at this
    simp at this

theorem singleton_inj {a b : Char} (h : String.singleton a = String.singleton b) : a = b := by
  have := congrArg String.data h
  simpa [String.singleton] using this

theorem foldl_bump_replicate (c : Char) :
    ∀ (n : Nat) (m : Int),
      (List.replicate n c).foldl (fun a x => bump a (String.singleton x))
        [(String.singleton c, m)] = [(String.singleton c, m + n)] := by
  intro n
  induction n with
  | zero => intro m; simp
  | succ k ih =>
    intro m
    rw [List.replicate_succ, List.foldl_cons]
    have hb : bump [(String.singleton c, m)] (String.singleton c) =
        [(String.singleton c, m + 1)] := by
      rw [bump, if_pos rfl]
    rw [hb, ih]
    have : m + 1 + (k : Int) = m + ((k : Int) + 1) := by ring
    rw [this]
    push_cast
    ring_nf

theorem counter_replicate (c : Char) (n : Nat) (h : 1 ≤ n) :
    counter (List.replicate n c) = [(String.singleton c, (n : Int))] := by
  obtain ⟨k, rfl⟩ : ∃ k, n = k + 1 := ⟨n - 1, by omega⟩
  unfold counter
  rw [List.replicate_succ, List.foldl_cons]
  have hb : bump [] (String.singleton c) = [(String.singleton c, 1)] := by rfl
  rw [hb, foldl_bump_replicate]
  push_cast
  ring_nf

/-- A text whose frequency table has a single key repeats a single
character. -/
theorem counter_single_char {text : List Char} (hne : text ≠ [])
    (h1 : (counter text).length = 1) :
    ∃ c, text = List.replicate text.length c := by
  match text, hne with
  | c :: t, _ =>
    refine ⟨c, ?_⟩
    have hlen : ((counter (c :: t)).map Prod.fst).length = 1 := by
      rw [List.length_map]
      exact h1
    obtain ⟨k, hk⟩ := List.length_eq_one.1 hlen
    have hmem : ∀ x ∈ c :: t, String.singleton x = k := by
      intro x hx
      have hm := counter_mem hx
      rw [hk] at hm
      simpa using hm
    have hall : ∀ x ∈ c :: t, x = c := by
      intro x hx
      exact singleton_inj ((hmem x hx).trans (hmem c (List.mem_cons_self _ _)).symm)
    exact List.eq_replicate_of_mem hall

theorem foldl_append_data {α : Type} (f : α → String) :
    ∀ (l : List α) (acc : String),
      (l.foldl (fun a x => a ++ f x) acc).data =
        acc.data ++ l.flatMap (fun x => (f x).data) := by
  intro l
  induction l with
  | nil => intro acc; simp
  | cons x t ih =>
    intro acc
    rw [List.foldl_cons, ih, List.flatMap_cons]
    simp

theorem join_data (L : List String) :
    (String.join L).data = L.flatMap String.data := by
  have hfd := foldl_append_data (fun s => s) L ""
  simpa [String.join] using hfd

theorem join_singletons (l : List Char) :
    String.join (l.map String.singleton) = String.mk l := by
  apply String.ext
  rw [join_data]
  induction l with
  | nil => rfl
  | cons c t ih =>
    rw [List.map_cons, List.flatMap_cons, ih]
    rfl

theorem strRepeat_replicate (c : Char) (n : Nat) :
    strRepeat (String.singleton c) ((n : Int)) = String.mk (List.replicate n c) := by
  unfold strRepeat
  rw [show ((n : Int)).toNat = n from Int.toNat_natCast n]
  rw [show List.replicate n (String.singleton c) = (List.replicate n c).map String.singleton
    from by rw [List.map_replicate]]
  exact join_singletons _

theorem assocGet_map_values {κ ν μ : Type} [DecidableEq κ] (g : ν → μ) :
    ∀ (l : List (κ × ν)) (k : κ),
      assocGet (l.map fun e => (e.1, g e.2)) k = (assocGet l k).map g := by
  intro l
  induction l with
  | nil => intro k; rfl
  | cons e t ih =>
    intro k
    obtain ⟨k', v⟩ := e
    rw [List.map_cons]
    show assocGet ((k', g v) :: t.map fun e => (e.1, g e.2)) k =
      Option.map g (assocGet ((k', v) :: t) k)
    rw [assocGet, assocGet]
    split
    · rfl
    · exact ih k

theorem mem_of_head?_eq {α : Type} {l : List α} {a : α} (h : l.head? = some a) : a ∈ l := by
  cases l with
  | nil => simp at h
  | cons x t =>
    simp only [List.head?_cons, Option.some.injEq] at h
    rw [h]
    exact List.mem_cons_self _ _

theorem mem_of_getLast?_eq {α : Type} {l : List α} {a : α} (h : l.getLast? = some a) :
    a ∈ l := by
  rw [← List.head?_reverse] at h
  have := mem_of_head?_eq h
  simpa using this

theorem flatMap_congr {α β : Type} {f g : α → List β} :
    ∀ {l : List α}, (∀ a ∈ l, f a = g a) → l.flatMap f = l.flatMap g := by
  intro l
  induction l with
  | nil => intro _; rfl
  | cons x t ih =>
    intro hfg
    rw [List.flatMap_cons, List.flatMap_cons, hfg x (List.mem_cons_self _ _),
      ih (fun a ha => hfg a (List.mem_cons_of_mem _ ha))]

/-- Every path character recorded in the codebook is `'0'` or `'1'`. -/
theorem codesListC_bits (t : HNode) :
    ∀ e ∈ codesListC t, ∀ ch ∈ e.2, ch = '0' ∨ ch = '1' := by
  induction t using HNode.ind with
  | step c f l r ihl ihr =>
    intro e he ch hch
    rw [codesListC_node] at he
    rcases List.mem_append.1 he with he2 | he2
    · rcases List.mem_append.1 he2 with he3 | he3
      · cases c with
        | none => simp at he3
        | some s =>
          simp only [List.mem_singleton] at he3
          rw [he3] at hch
          simp at hch
      · obtain ⟨e1, he1, rfl⟩ := List.mem_map.1 he3
        rcases List.mem_cons.1 hch with rfl | hch2
        · exact Or.inl rfl
        · cases l with
          | none => simp at he1
          | some tl => exact ihl tl rfl e1 he1 ch hch2
    · obtain ⟨e1, he1, rfl⟩ := List.mem_map.1 he2
      rcases List.mem_cons.1 hch with rfl | hch2
      · exact Or.inr rfl
      · cases r with
        | none => simp at he1
        | some tr => exact ihr tr rfl e1 he1 ch hch2

/-- A well-formed tree holding at least two symbols is an internal node. -/
theorem WF_char_none {t : HNode} (hwf : WF t) (h2 : 2 ≤ (syms t).length) :
    t.char = none := by
  cases hwf with
  | leaf c f => simp [syms] at h2
  | node f l r hl hr => rfl

/-- For a non-empty frequency table the merge loop leaves exactly one node:
a well-formed tree whose leaf symbols are a permutation of the table's keys. -/
theorem buildRoot_spec (freq : List (String × Int)) (hne : freq ≠ []) :
    ∃ root, treeLoop (heapify (initNodes freq)) = [root] ∧ WF root ∧
      List.Perm (syms root) (freq.map Prod.fst) := by
  have hlen0 : (initNodes freq).length = freq.length := by simp [initNodes]
  have hheapne : heapify (initNodes freq) ≠ [] := by
    intro hcon
    have hlen := (heapify_perm (initNodes freq)).length_eq
    rw [hcon, hlen0] at hlen
    exact hne (List.length_eq_zero.1 hlen.symm)
  obtain ⟨root, hroot⟩ := List.length_eq_one.1 (treeLoop_length _ hheapne)
  refine ⟨root, hroot, ?_, ?_⟩
  · have hwf := treeLoop_wf (heapify (initNodes freq))
      (fun n hn => initNodes_wf freq n ((heapify_perm _).subset hn))
    refine hwf root ?_
    rw [hroot]
    exact List.mem_singleton_self root
  · have hp := treeLoop_syms (heapify (initNodes freq))
    rw [hroot] at hp
    simp only [List.flatMap_cons, List.flatMap_nil, List.append_nil] at hp
    refine hp.trans ?_
    refine ((heapify_perm (initNodes freq)).flatMap_right syms).trans ?_
    rw [initNodes_syms]

theorem paddingOf_lt (L : Nat) : paddingOf L < 8 := by
  show (if 8 - L % 8 = 8 then 0 else 8 - L % 8) < 8
  split <;> omega

theorem paddingOf_mod (L : Nat) : (L + paddingOf L) % 8 = 0 := by
  show (L + if 8 - L % 8 = 8 then 0 else 8 - L % 8) % 8 = 0
  split <;> omega

/-- The root node `compress_to_file` builds. -/
def rootOf (text : List Char) : Option HNode := (build_huffman_tree text).1

/-- The frequency table `compress_to_file` writes into the header. -/
def freqOf (text : List Char) : List (String × Int) := (build_huffman_tree text).2

/-- The codebook `compress_to_file` encodes with, after the single-character
override `codes[char] = "0"`. -/
def codesOf (text : List Char) : List (String × String) :=
  let codes0 := build_codes (rootOf text) "" []
  if (freqOf text).length = 1 then
    match freqOf text with
    | (k, _) :: _ => assocSet codes0 k "0"
    | [] => codes0
  else codes0

/-- The concatenated code bits of the text. -/
def encodedOf (text : List Char) : String :=
  text.foldl (fun acc c => acc ++ ((assocGet (codesOf text) (String.singleton c)).getD "")) ""

/-- The packed data bytes of the output file. -/
def byteArrayOf (text : List Char) : List Nat :=
  bitsToBytes (encodedOf text ++
    String.mk (List.replicate (paddingOf (encodedOf text).length) '0')).data

/-- The full byte content of the output file: JSON header line, padding line,
then the packed data. -/
def fileOf (text : List Char) : List Nat :=
  jsonDumps (freqOf text) ++
    (10 :: (natDigits (paddingOf (encodedOf text).length) ++ (10 :: byteArrayOf text)))

/-- On non-empty text, `compress_to_file` returns the packed byte count times
eight and writes exactly `fileOf text`. -/
theorem compress_to_file_eq (text : List Char) (h : text ≠ []) :
    compress_to_file text = ((byteArrayOf text).length * 8, some (fileOf text)) := by
  rw [compress_to_file, if_neg h]
  rfl

/-- With at least two distinct symbols the single-character override does not
fire and the codebook is exactly the preorder entry list of the tree, with
paths rendered as strings. -/
theorem codesOf_entries (text : List Char) (h : text ≠ [])
    {root : HNode} (hroot : rootOf text = some root)
    (hfreqOf : freqOf text = counter text)
    (hperm : List.Perm (syms root) ((counter text).map Prod.fst))
    (hone : ¬ (counter text).length = 1) :
    codesOf text = (codesListC root).map (fun e => (e.1, String.mk e.2)) := by
  have hnd : ((codesListC root).map Prod.fst).Nodup := by
    rw [codesListC_keys]
    exact hperm.nodup_iff.2 (counter_keys_nodup text)
  have hone2 : ¬ (freqOf text).length = 1 := by
    rw [hfreqOf]
    exact hone
  simp only [codesOf]
  rw [if_neg hone2, hroot]
  rw [build_codes_eq]
  have hemp : ∀ s : String, ("" : String) ++ s = s := fun s => by
    apply String.ext
    simp
  simp only [hemp]
  have hfresh := foldl_assocSet_fresh
    ((codesListC root).map (fun e => (e.1, String.mk e.2))) []
    (by
      simp only [List.map_nil, List.nil_append, List.map_map]
      rw [show (Prod.fst ∘ fun (e : String × List Char) => (e.1, String.mk e.2)) =
        Prod.fst from by funext e; rfl]
      exact hnd)
  rw [List.foldl_map] at hfresh
  simp only [List.nil_append] at hfresh
  exact hfresh

/-- The encoded bit string is the concatenation of each character's code path,
and each looked-up path is a genuine entry of the codebook. -/
theorem encodedOf_paths (text : List Char) (h : text ≠ [])
    {root : HNode} (hroot : rootOf text = some root)
    (hfreqOf : freqOf text = counter text)
    (hperm : List.Perm (syms root) ((counter text).map Prod.fst))
    (hone : ¬ (counter text).length = 1) :
    (encodedOf text).data =
      text.flatMap (fun c => (assocGet (codesListC root) (String.singleton c)).getD []) ∧
    ∀ c ∈ text,
      (String.singleton c,
        (assocGet (codesListC root) (String.singleton c)).getD []) ∈ codesListC root := by
  have hpath : ∀ c ∈ text,
      assocGet (codesListC root) (String.singleton c) =
        some ((assocGet (codesListC root) (String.singleton c)).getD []) := by
    intro c hc
    have hkey : String.singleton c ∈ (codesListC root).map Prod.fst := by
      rw [codesListC_keys]
      exact hperm.symm.subset (counter_mem hc)
    have hsome := assocGet_isSome (codesListC root) (String.singleton c) hkey
    cases hg : assocGet (codesListC root) (String.singleton c) with
    | none => rw [hg] at hsome; simp at hsome
    | some p => rfl
  have hget : ∀ c ∈ text,
      ((assocGet (codesOf text) (String.singleton c)).getD "").data =
        (assocGet (codesListC root) (String.singleton c)).getD [] := by
    intro c hc
    rw [codesOf_entries text h hroot hfreqOf hperm hone]
    rw [assocGet_map_values (fun p => String.mk p) (codesListC root) (String.singleton c)]
    rw [hpath c hc]
    rfl
  constructor
  · unfold encodedOf
    rw [foldl_append_data]
    rw [show ("" : String).data = ([] : List Char) from rfl, List.nil_append]
    exact flatMap_congr hget
  · intro c hc
    exact assocGet_mem (hpath c hc)

/-- Round trip: decompressing the file written for a non-empty text yields
the original text. -/
theorem decompress_fileOf (text : List Char) (h : text ≠ []) :
    decompress_from_file (fileOf text) = some (String.mk text) := by
  have hfne : counter text ≠ [] := counter_ne_nil h
  obtain ⟨root, hroot, hwfroot, hperm⟩ := buildRoot_spec (counter text) hfne
  have hbht : build_huffman_tree text = (some root, counter text) := by
    rw [build_huffman_tree, if_neg h]
    show ((treeLoop (heapify (initNodes (counter text)))).head?, counter text) = _
    rw [hroot]
    rfl
  have hrootOf : rootOf text = some root := by rw [rootOf, hbht]
  have hfreqOf : freqOf text = counter text := by rw [freqOf, hbht]
  have hbtf : build_tree_from_frequency (counter text) = some root := by
    rw [build_tree_from_frequency, if_neg hfne]
    show (match treeLoop (heapify (initNodes (counter text))) with
          | [] => some (HNode.mk none 0 none none)
          | r :: _ => some r) = some root
    rw [hroot]
  set pad := paddingOf (encodedOf text).length with hpaddef
  have hdig : ∀ b ∈ natDigits pad, isDigit b = true := by
    have hall := natDigits_all_digits pad
    rw [List.all_eq_true] at hall
    exact hall
  have hnodig10 : (10 : Nat) ∉ natDigits pad := by
    intro hmem
    have hd := hdig 10 hmem
    simp [isDigit] at hd
  have hdignospace : ∀ b ∈ natDigits pad, isSpaceByte b = false := by
    intro b hmem
    have hd := hdig b hmem
    simp [isDigit] at hd
    simp [isSpaceByte]
    omega
  have hr1 : readline (fileOf text) =
      (jsonDumps (counter text) ++ [10], natDigits pad ++ 10 :: byteArrayOf text) := by
    rw [fileOf, hfreqOf]
    exact readline_append _ _ (jsonDumps_no_newline (counter text))
  have hr2 : readline (natDigits pad ++ 10 :: byteArrayOf text) =
      (natDigits pad ++ [10], byteArrayOf text) :=
    readline_append _ _ hnodig10
  have hline1 : (readline (fileOf text)).1 = jsonDumps (counter text) ++ [10] := by
    rw [hr1]
  have hrest1 : (readline (fileOf text)).2 = natDigits pad ++ 10 :: byteArrayOf text := by
    rw [hr1]
  have hline2 : (readline (natDigits pad ++ 10 :: byteArrayOf text)).1 =
      natDigits pad ++ [10] := by
    rw [hr2]
  have hrest2 : (readline (natDigits pad ++ 10 :: byteArrayOf text)).2 = byteArrayOf text := by
    rw [hr2]
  have hb1 : bstrip (jsonDumps (counter text) ++ [10]) = jsonDumps (counter text) := by
    refine bstrip_append_newline _ ?_ ?_
    · intro b hb
      rw [jsonDumps] at hb
      simp at hb
      subst hb
      decide
    · intro b hb
      rw [jsonDumps] at hb
      rw [show (123 : Nat) :: dumpItems (counter text) ++ [125] =
        ((123 : Nat) :: dumpItems (counter text)) ++ [125] from rfl] at hb
      rw [List.getLast?_concat] at hb
      simp at hb
      subst hb
      decide
  have hb2 : bstrip (natDigits pad ++ [10]) = natDigits pad := by
    refine bstrip_append_newline _ ?_ ?_
    · intro b hb
      exact hdignospace b (mem_of_head?_eq hb)
    · intro b hb
      exact hdignospace b (mem_of_getLast?_eq hb)
  simp only [decompress_from_file]
  rw [hline1, hrest1, hline2, hrest2, hb1, hb2]
  rw [jsonLoads_jsonDumps (counter text) (counter_keys_nodup text)]
  rw [parseIntBytes_natDigits pad]
  simp only []
  rw [hbtf]
  simp only []
  by_cases hone : (counter text).length = 1
  · obtain ⟨c, hrep⟩ := counter_single_char h hone
    have hn1 : 1 ≤ text.length := by
      cases text with
      | nil => exact absurd rfl h
      | cons a t => simp
    have hcount : counter text = [(String.singleton c, (text.length : Int))] := by
      conv_lhs => rw [hrep]
      rw [counter_replicate c text.length hn1]
    rw [if_pos hone, hcount]
    simp only []
    rw [strRepeat_replicate]
    rw [← hrep]
  · rw [if_neg hone]
    have h2 : 2 ≤ (counter text).length := by
      have hpos := List.length_pos.2 hfne
      omega
    have hchar : root.char = none := by
      refine WF_char_none hwfroot ?_
      rw [hperm.length_eq, List.length_map]
      exact h2
    obtain ⟨hdata, hmem⟩ := encodedOf_paths text h hrootOf hfreqOf hperm hone
    have hbinary : ∀ ch ∈ (encodedOf text).data ++ List.replicate pad '0',
        ch = '0' ∨ ch = '1' := by
      intro ch hch
      rcases List.mem_append.1 hch with hch | hch
      · rw [hdata] at hch
        obtain ⟨a, ha, hcha⟩ := List.mem_flatMap.1 hch
        exact codesListC_bits root _ (hmem a ha) ch hcha
      · exact Or.inl (List.eq_of_mem_replicate hch)
    have hlen8 : ((encodedOf text).data ++ List.replicate pad '0').length % 8 = 0 := by
      rw [List.length_append, List.length_replicate]
      exact paddingOf_mod _
    have hflat : (byteArrayOf text).flatMap byteBits =
        (encodedOf text).data ++ List.replicate pad '0' := by
      rw [byteArrayOf, ← hpaddef]
      rw [show (encodedOf text ++ String.mk (List.replicate pad '0')).data =
        (encodedOf text).data ++ List.replicate pad '0' from by simp]
      exact bitsToBytes_roundtrip _ hbinary hlen8
    rw [hflat]
    have hstrip : (if ((pad : Int)) > 0
        then ((encodedOf text).data ++ List.replicate pad '0').take
          (((encodedOf text).data ++ List.replicate pad '0').length - ((pad : Int)).toNat)
        else (encodedOf text).data ++ List.replicate pad '0') = (encodedOf text).data := by
      by_cases hp : pad = 0
      · rw [if_neg (by rw [hp]; decide), hp]
        simp
      · have hp0 : 0 < pad := Nat.pos_of_ne_zero hp
        rw [if_pos (by exact_mod_cast hp0)]
        rw [List.length_append, List.length_replicate, Int.toNat_natCast]
        rw [show (encodedOf text).data.length + pad - pad = (encodedOf text).data.length
          from by omega]
        exact List.take_left _ _
    rw [hstrip]
    have hsnd : (encodedOf text).data =
        (text.map (fun c => (String.singleton c,
          (assocGet (codesListC root) (String.singleton c)).getD []))).flatMap Prod.snd := by
      rw [hdata, List.flatMap_map]
    have hwalk := treeWalk_entries root hwfroot hchar
      (text.map (fun c => (String.singleton c,
        (assocGet (codesListC root) (String.singleton c)).getD [])))
      (by
        intro e he
        obtain ⟨c, hc, rfl⟩ := List.mem_map.1 he
        exact hmem c hc) []
    rw [hsnd, hwalk]
    simp only [List.nil_append, Option.map_some']
    rw [List.map_map]
    rw [show (Prod.fst ∘ fun c => (String.singleton c,
      (assocGet (codesListC root) (String.singleton c)).getD [])) = String.singleton
      from by funext c; rfl]
    rw [join_singletons]

/-- `text.encode('utf-8')` for one character, written with division and
remainder (the usual shift-and-mask form computes the same byte values). -/
def utf8EncodeChar (c : Char) : List Nat :=
  let n := c.toNat
  if n < 128 then [n]
  else if n < 2048 then [192 + n / 64, 128 + n % 64]
  else if n < 65536 then [224 + n / 4096, 128 + (n / 64) % 64, 128 + n % 64]
  else [240 + n / 262144, 128 + (n / 4096) % 64, 128 + (n / 64) % 64, 128 + n % 64]

/-- `text.encode('utf-8')`. -/
def utf8Encode (s : String) : List Nat := s.data.flatMap utf8EncodeChar

/-- Read one UTF-8 sequence from the front: the code point and the remaining
bytes, or `none` on a malformed front. Overlong forms, surrogates and
out-of-range code points are rejected by the numeric range checks after the
continuation bytes are read, which accepts exactly the RFC 3629 sequences. -/
def utf8DecodeOne : List Nat → Option (Nat × List Nat)
  | [] => none
  | b :: rest =>
    if b < 128 then some (b, rest)
    else if b < 192 then none
    else if b < 224 then
      match rest with
      | b1 :: rest1 =>
        if (128 ≤ b1 ∧ b1 < 192) ∧ 128 ≤ (b - 192) * 64 + (b1 - 128) then
          some ((b - 192) * 64 + (b1 - 128), rest1)
        else none
      | [] => none
    else if b < 240 then
      match rest with
      | b1 :: b2 :: rest2 =>
        if (128 ≤ b1 ∧ b1 < 192) ∧ (128 ≤ b2 ∧ b2 < 192) ∧
            2048 ≤ (b - 224) * 4096 + (b1 - 128) * 64 + (b2 - 128) ∧
            ((b - 224) * 4096 + (b1 - 128) * 64 + (b2 - 128) < 55296 ∨
              57344 ≤ (b - 224) * 4096 + (b1 - 128) * 64 + (b2 - 128)) then
          some ((b - 224) * 4096 + (b1 - 128) * 64 + (b2 - 128), rest2)
        else none
      | _ => none
    else if b < 248 then
      match rest with
      | b1 :: b2 :: b3 :: rest3 =>
        if (128 ≤ b1 ∧ b1 < 192) ∧ (128 ≤ b2 ∧ b2 < 192) ∧ (128 ≤ b3 ∧ b3 < 192) ∧
            65536 ≤ (b - 240) * 262144 + (b1 - 128) * 4096 + (b2 - 128) * 64 + (b3 - 128) ∧
            (b - 240) * 262144 + (b1 - 128) * 4096 + (b2 - 128) * 64 + (b3 - 128) < 1114112 then
          some ((b - 240) * 262144 + (b1 - 128) * 4096 + (b2 - 128) * 64 + (b3 - 128), rest3)
        else none
      | _ => none
    else none

theorem utf8DecodeOne_length : ∀ {l : List Nat} {nr : Nat × List Nat},
    utf8DecodeOne l = some nr → nr.2.length < l.length := by
  intro l nr h
  match l with
  | [] => simp [utf8DecodeOne] at h
  | b :: rest =>
    unfold utf8DecodeOne at h
    simp only [] at h
    split_ifs at h with h1 h2 h3 h4 h5
    · obtain hr : nr = (b, rest) := (Option.some.inj h).symm
      rw [hr]
      simp
    · cases rest with
      | nil => simp at h
      | cons b1 rest1 =>
        simp only [] at h
        split_ifs at h
        obtain hr : nr = (_, rest1) := (Option.some.inj h).symm
        rw [hr]
        simp
        omega
    · cases rest with
      | nil => simp at h
      | cons b1 rest1 =>
        cases rest1 with
        | nil => simp at h
        | cons b2 rest2 =>
          simp only [] at h
          split_ifs at h
          obtain hr : nr = (_, rest2) := (Option.some.inj h).symm
          rw [hr]
          simp
          omega
    · cases rest with
      | nil => simp at h
      | cons b1 rest1 =>
        cases rest1 with
        | nil => simp at h
        | cons b2 rest2 =>
          cases rest2 with
          | nil => simp at h
          | cons b3 rest3 =>
            simp only [] at h
            split_ifs at h
            obtain hr : nr = (_, rest3) := (Option.some.inj h).symm
            rw [hr]
            simp
            omega

/-- Strict `bytes.decode('utf-8')` (as a code-point list): `none` models
`UnicodeDecodeError`. -/
def utf8Decode (l : List Nat) : Option (List Char) :=
  match l with
  | [] => some []
  | b :: rest =>
    match h : utf8DecodeOne (b :: rest) with
    | none => none
    | some nr => (utf8Decode nr.2).map (fun cs => Char.ofNat nr.1 :: cs)
termination_by l.length
decreasing_by exact utf8DecodeOne_length h

theorem utf8Decode_nil : utf8Decode [] = some [] := by
  rw [utf8Decode]

theorem utf8Decode_cons_none {b : Nat} {rest : List Nat}
    (h : utf8DecodeOne (b :: rest) = none) : utf8Decode (b :: rest) = none := by
  rw [utf8Decode]
  split
  · rfl
  · next nr heq => rw [h] at heq; exact Option.noConfusion heq

theorem utf8Decode_cons_some {b : Nat} {rest : List Nat} {nr : Nat × List Nat}
    (h : utf8DecodeOne (b :: rest) = some nr) :
    utf8Decode (b :: rest) = (utf8Decode nr.2).map (fun cs => Char.ofNat nr.1 :: cs) := by
  rw [utf8Decode]
  split
  · next heq => rw [h] at heq; exact Option.noConfusion heq
  · next nr2 heq =>
    rw [h] at heq
    rw [Option.some.inj heq]

theorem utf8EncodeChar_ne_nil (c : Char) : utf8EncodeChar c ≠ [] := by
  show (if c.toNat < 128 then [c.toNat]
    else if c.toNat < 2048 then [192 + c.toNat / 64, 128 + c.toNat % 64]
    else if c.toNat < 65536 then
      [224 + c.toNat / 4096, 128 + (c.toNat / 64) % 64, 128 + c.toNat % 64]
    else [240 + c.toNat / 262144, 128 + (c.toNat / 4096) % 64, 128 + (c.toNat / 64) % 64,
      128 + c.toNat % 64]) ≠ []
  split_ifs <;> simp

theorem utf8EncodeChar_lt256 (c : Char) : ∀ b ∈ utf8EncodeChar c, b < 256 := by
  have hval : c.toNat < 55296 ∨ (57344 ≤ c.toNat ∧ c.toNat < 1114112) := c.valid
  intro b hb
  have hb2 : b ∈ (if c.toNat < 128 then [c.toNat]
    else if c.toNat < 2048 then [192 + c.toNat / 64, 128 + c.toNat % 64]
    else if c.toNat < 65536 then
      [224 + c.toNat / 4096, 128 + (c.toNat / 64) % 64, 128 + c.toNat % 64]
    else [240 + c.toNat / 262144, 128 + (c.toNat / 4096) % 64, 128 + (c.toNat / 64) % 64,
      128 + c.toNat % 64]) := hb
  split_ifs at hb2 <;> simp at hb2 <;> omega

/-- Reading one sequence off the UTF-8 bytes of a character recovers its code
point. -/
theorem utf8DecodeOne_encodeChar (c : Char) (rest : List Nat) :
    utf8DecodeOne (utf8EncodeChar c ++ rest) = some (c.toNat, rest) := by
  have hval : c.toNat < 55296 ∨ (57344 ≤ c.toNat ∧ c.toNat < 1114112) := c.valid
  rw [show utf8EncodeChar c = (if c.toNat < 128 then [c.toNat]
    else if c.toNat < 2048 then [192 + c.toNat / 64, 128 + c.toNat % 64]
    else if c.toNat < 65536 then
      [224 + c.toNat / 4096, 128 + (c.toNat / 64) % 64, 128 + c.toNat % 64]
    else [240 + c.toNat / 262144, 128 + (c.toNat / 4096) % 64, 128 + (c.toNat / 64) % 64,
      128 + c.toNat % 64]) from rfl]
  by_cases h1 : c.toNat < 128
  · rw [if_pos h1, List.cons_append, List.nil_append]
    unfold utf8DecodeOne
    simp only []
    rw [if_pos h1]
  · rw [if_neg h1]
    by_cases h2 : c.toNat < 2048
    · rw [if_pos h2, List.cons_append, List.cons_append, List.nil_append]
      unfold utf8DecodeOne
      simp only []
      rw [if_neg (by omega), if_neg (by omega), if_pos (by omega)]
      rw [if_pos (by refine ⟨⟨?_, ?_⟩, ?_⟩ <;> omega)]
      rw [show (192 + c.toNat / 64 - 192) * 64 + (128 + c.toNat % 64 - 128) = c.toNat
        from by omega]
    · rw [if_neg h2]
      by_cases h3 : c.toNat < 65536
      · rw [if_pos h3, List.cons_append, List.cons_append, List.cons_append, List.nil_append]
        unfold utf8DecodeOne
        simp only []
        rw [if_neg (by omega), if_neg (by omega), if_neg (by omega), if_pos (by omega)]
        rw [if_pos (by refine ⟨⟨?_, ?_⟩, ⟨?_, ?_⟩, ?_, ?_⟩ <;> omega)]
        rw [show (224 + c.toNat / 4096 - 224) * 4096 + (128 + c.toNat / 64 % 64 - 128) * 64 +
          (128 + c.toNat % 64 - 128) = c.toNat from by omega]
      · rw [if_neg h3, List.cons_append, List.cons_append, List.cons_append, List.cons_append,
          List.nil_append]
        unfold utf8DecodeOne
        simp only []
        rw [if_neg (by omega), if_neg (by omega), if_neg (by omega), if_neg (by omega),
          if_pos (by omega)]
        rw [if_pos (by refine ⟨⟨?_, ?_⟩, ⟨?_, ?_⟩, ⟨?_, ?_⟩, ?_, ?_⟩ <;> omega)]
        rw [show (240 + c.toNat / 262144 - 240) * 262144 +
          (128 + c.toNat / 4096 % 64 - 128) * 4096 +
          (128 + c.toNat / 64 % 64 - 128) * 64 + (128 + c.toNat % 64 - 128) = c.toNat
          from by omega]

/-- Decoding the UTF-8 bytes of one character prepends that character. -/
theorem utf8Decode_encodeChar (c : Char) (rest : List Nat) :
    utf8Decode (utf8EncodeChar c ++ rest) = (utf8Decode rest).map (fun cs => c :: cs) := by
  have hone := utf8DecodeOne_encodeChar c rest
  have hne := utf8EncodeChar_ne_nil c
  match henc : utf8EncodeChar c with
  | [] => exact absurd henc hne
  | e :: es =>
    rw [henc, List.cons_append] at hone
    rw [List.cons_append, utf8Decode_cons_some hone]
    show (utf8Decode rest).map (fun cs => Char.ofNat c.toNat :: cs) = _
    rw [Char.ofNat_toNat]

/-- Decoding the UTF-8 bytes of a character list prepends that list. -/
theorem utf8Decode_encode (cs : List Char) :
    ∀ (rest : List Nat),
      utf8Decode (cs.flatMap utf8EncodeChar ++ rest) = (utf8Decode rest).map (cs ++ ·) := by
  induction cs with
  | nil =>
    intro rest
    rw [List.flatMap_nil, List.nil_append]
    cases utf8Decode rest with
    | none => rfl
    | some xs => rfl
  | cons c t ih =>
    intro rest
    rw [List.flatMap_cons, List.append_assoc, utf8Decode_encodeChar, ih]
    cases utf8Decode rest with
    | none => rfl
    | some xs => rfl

/-- `text.encode('utf-8').decode('utf-8')` round trip. -/
theorem utf8Decode_utf8Encode (s : String) : utf8Decode (utf8Encode s) = some s.data := by
  have h := utf8Decode_encode s.data []
  rw [List.append_nil, utf8Decode_nil] at h
  rw [utf8Encode, h]
  simp

theorem utf8Encode_ne_nil (s : String) (h : s ≠ "") : utf8Encode s ≠ [] := by
  have hd : s.data ≠ [] := by
    intro hc
    exact h (String.ext (hc.trans rfl))
  rw [utf8Encode]
  cases hs : s.data with
  | nil => exact absurd hs hd
  | cons c t =>
    rw [List.flatMap_cons]
    intro hcon
    exact utf8EncodeChar_ne_nil c (List.append_eq_nil.1 hcon).1

theorem utf8Encode_lt256 (s : String) : ∀ b ∈ utf8Encode s, b < 256 := by
  intro b hb
  rw [utf8Encode] at hb
  obtain ⟨c, _, hbc⟩ := List.mem_flatMap.1 hb
  exact utf8EncodeChar_lt256 c b hbc

/-- State of the `LZW.encode` loop (field names follow the source). -/
structure LZWEnc where
  dictionary : List (List Nat × Nat)
  dict_size : Nat
  current_string : List Nat
  result_codes : List Nat

/-- `{bytes([i]): i for i in range(256)}`. -/
def dict0e : List (List Nat × Nat) := (List.range 256).map fun i => ([i], i)

/-- One iteration of the `for byte in text_bytes` loop of `LZW.encode`.
`dictionary[current_string]` cannot raise `KeyError` because a non-empty
current string is always a dictionary key (proved in the round-trip
development); its lookup is modelled with a default. -/
def lzwStep (st : LZWEnc) (byte : Nat) : LZWEnc :=
  let combined := st.current_string ++ [byte]
  match assocGet st.dictionary combined with
  | some _ => { st with current_string := combined }
  | none =>
    { dictionary := assocSet st.dictionary combined st.dict_size
      dict_size := st.dict_size + 1
      current_string := [byte]
      result_codes :=
        if st.current_string ≠ [] then
          st.result_codes ++ [(assocGet st.dictionary st.current_string).getD 0]
        else st.result_codes }

/-- The state of the encoder after its byte loop. -/
def LZW.encodeState (text : String) : LZWEnc :=
  (utf8Encode text).foldl lzwStep ⟨dict0e, 256, [], []⟩

/-- `LZW.encode(text)`: the loop followed by the final
`if current_string: result_codes.append(...)` flush. -/
def LZW.encode (text : String) : List Nat :=
  if text = "" then []
  else
    let st := LZW.encodeState text
    if st.current_string ≠ [] then
      st.result_codes ++ [(assocGet st.dictionary st.current_string).getD 0]
    else st.result_codes

/-- State of the `LZW.decode` loop (field names follow the source). -/
structure LZWDec where
  dictionary : List (Nat × List Nat)
  dict_size : Nat
  old_code : Nat
  current_byte : List Nat
  result_bytes : List Nat

/-- `{i: bytes([i]) for i in range(256)}`. -/
def dict0d : List (Nat × List Nat) := (List.range 256).map fun i => (i, [i])

/-- Entry resolution for one loop code of `LZW.decode`: a known code, the
next-code self-reference `dictionary[old_code] + current_byte`, or the
`ValueError` (`none`). -/
def lzwResolve (st : LZWDec) (new_code : Nat) : Option (List Nat) :=
  match assocGet st.dictionary new_code with
  | some entry => some entry
  | none =>
    if new_code = st.dict_size then
      some ((assocGet st.dictionary st.old_code).getD [] ++ st.current_byte)
    else none

/-- One iteration of the `for new_code in compressed_codes[1:]` loop:
append the entry, record `dictionary[old_code] + entry[0:1]` under the next
code, then advance `old_code` and `current_byte`. -/
def lzwStepD (st : LZWDec) (new_code : Nat) : Option LZWDec :=
  (lzwResolve st new_code).map fun entry =>
    { dictionary := assocSet st.dictionary st.dict_size
        ((assocGet st.dictionary st.old_code).getD [] ++ entry.take 1)
      dict_size := st.dict_size + 1
      old_code := new_code
      current_byte := entry.take 1
      result_bytes := st.result_bytes ++ entry }

def lzwDecodeLoop : LZWDec → List Nat → Option LZWDec
  | st, [] => some st
  | st, c :: cs =>
    match lzwStepD st c with
    | none => none
    | some st2 => lzwDecodeLoop st2 cs

/-- The decoder state after `LZW.decode`'s loop; `none` models the uncaught
`KeyError` on an invalid first code and the loop's `ValueError`. -/
def lzwDecodeRun (compressed_codes : List Nat) : Option LZWDec :=
  match compressed_codes with
  | [] => none
  | old_code :: rest =>
    match assocGet dict0d old_code with
    | none => none
    | some result_bytes =>
      lzwDecodeLoop ⟨dict0d, 256, old_code, result_bytes.take 1, result_bytes⟩ rest

/-- `LZW.decode(compressed_codes)`: empty list to empty string, otherwise the
loop followed by `result_bytes.decode('utf-8')`. -/
def LZW.decode (compressed_codes : List Nat) : Option String :=
  match compressed_codes with
  | [] => some ""
  | _ :: _ =>
    match lzwDecodeRun compressed_codes with
    | none => none
    | some st => (utf8Decode st.result_bytes).map String.mk

/-- The key–code mirror between the two dictionaries. -/
def swapKV (e : List Nat × Nat) : Nat × List Nat := (e.2, e.1)

theorem take_one_append (w z : List Nat) (h : w ≠ []) : (w ++ z).take 1 = w.take 1 := by
  cases w with
  | nil => exact absurd rfl h
  | cons a t => simp

theorem assocGet_rangeE : ∀ (n s x : Nat),
    assocGet ((List.range' s n).map fun i => (([i] : List Nat), i)) [x] =
      if s ≤ x ∧ x < s + n then some x else none := by
  intro n
  induction n with
  | zero =>
    intro s x
    rw [if_neg (by omega)]
    rfl
  | succ k ih =>
    intro s x
    rw [List.range'_succ, List.map_cons, assocGet]
    by_cases hsx : ([s] : List Nat) = [x]
    · have hx : s = x := by injection hsx
      rw [if_pos hsx, if_pos (by omega), hx]
    · have hne : s ≠ x := fun hc => hsx (by rw [hc])
      rw [if_neg hsx, ih]
      by_cases h2 : s + 1 ≤ x ∧ x < s + 1 + k
      · rw [if_pos h2, if_pos (by omega)]
      · rw [if_neg h2, if_neg (by omega)]

theorem assocGet_rangeD : ∀ (n s x : Nat),
    assocGet ((List.range' s n).map fun i => (i, ([i] : List Nat))) x =
      if s ≤ x ∧ x < s + n then some [x] else none := by
  intro n
  induction n with
  | zero =>
    intro s x
    rw [if_neg (by omega)]
    rfl
  | succ k ih =>
    intro s x
    rw [List.range'_succ, List.map_cons, assocGet]
    by_cases hsx : s = x
    · rw [if_pos hsx, if_pos (by omega), hsx]
    · rw [if_neg hsx, ih]
      by_cases h2 : s + 1 ≤ x ∧ x < s + 1 + k
      · rw [if_pos h2, if_pos (by omega)]
      · rw [if_neg h2, if_neg (by omega)]

theorem assocGet_dict0e_singleton (x : Nat) (h : x < 256) : assocGet dict0e [x] = some x := by
  rw [dict0e, List.range_eq_range', assocGet_rangeE, if_pos ⟨by omega, by omega⟩]

theorem assocGet_dict0e_some {k : List Nat} {c : Nat} (h : assocGet dict0e k = some c) :
    k = [c] ∧ c < 256 := by
  have hmem := assocGet_mem h
  rw [dict0e] at hmem
  obtain ⟨i, hi, hik⟩ := List.mem_map.1 hmem
  have h1 : ([i] : List Nat) = k := congrArg Prod.fst hik
  have h2 : i = c := congrArg Prod.snd hik
  subst h2
  exact ⟨h1.symm, List.mem_range.1 hi⟩

theorem assocGet_dict0e_long (k : List Nat) (h : k.length ≠ 1) : assocGet dict0e k = none := by
  rw [assocGet_eq_none, dict0e, List.map_map]
  intro hc
  obtain ⟨i, hi, hik⟩ := List.mem_map.1 hc
  have h1 : ([i] : List Nat) = k := hik
  rw [← h1] at h
  simp at h

theorem assocGet_dict0d (x : Nat) :
    assocGet dict0d x = if x < 256 then some [x] else none := by
  rw [dict0d, List.range_eq_range', assocGet_rangeD]
  by_cases h : x < 256
  · rw [if_pos ⟨by omega, by omega⟩, if_pos h]
  · rw [if_neg (by omega), if_neg h]

theorem dict0e_keys_nodup : (dict0e.map Prod.fst).Nodup := by
  rw [dict0e, List.map_map]
  refine List.Nodup.map ?_ (List.nodup_range 256)
  intro a b hab
  have h1 : ([a] : List Nat) = [b] := hab
  injection h1

theorem dict0d_keys : dict0d.map Prod.fst = List.range 256 := by
  rw [dict0d, List.map_map]
  rw [show (Prod.fst ∘ fun i => (i, ([i] : List Nat))) = id from by funext i; rfl, List.map_id]

theorem dict0d_keys_nodup : (dict0d.map Prod.fst).Nodup := by
  rw [dict0d_keys]
  exact List.nodup_range 256

theorem dict0d_codes : ∀ c ∈ dict0d.map Prod.fst, c < 256 := by
  intro c hc
  rw [dict0d_keys] at hc
  exact List.mem_range.1 hc

theorem lzwDecodeLoop_append (a b : List Nat) : ∀ st, lzwDecodeLoop st (a ++ b) =
    match lzwDecodeLoop st a with
    | none => none
    | some st2 => lzwDecodeLoop st2 b := by
  induction a with
  | nil =>
    intro st
    rw [List.nil_append]
    rfl
  | cons c cs ih =>
    intro st
    rw [List.cons_append]
    rw [show lzwDecodeLoop st (c :: (cs ++ b)) =
      (match lzwStepD st c with
        | none => none
        | some st2 => lzwDecodeLoop st2 (cs ++ b)) from rfl]
    rw [show lzwDecodeLoop st (c :: cs) =
      (match lzwStepD st c with
        | none => none
        | some st2 => lzwDecodeLoop st2 cs) from rfl]
    cases lzwStepD st c with
    | none => rfl
    | some st2 => exact ih st2

theorem lzwDecodeRun_snoc {codes : List Nat} {D : LZWDec}
    (h : lzwDecodeRun codes = some D) (c : Nat) :
    lzwDecodeRun (codes ++ [c]) = lzwStepD D c := by
  match codes with
  | [] => exact Option.noConfusion h
  | c0 :: rest =>
    rw [show lzwDecodeRun (c0 :: rest) =
      (match assocGet dict0d c0 with
        | none => none
        | some result_bytes =>
          lzwDecodeLoop ⟨dict0d, 256, c0, result_bytes.take 1, result_bytes⟩ rest)
      from rfl] at h
    rw [List.cons_append]
    rw [show lzwDecodeRun (c0 :: (rest ++ [c])) =
      (match assocGet dict0d c0 with
        | none => none
        | some result_bytes =>
          lzwDecodeLoop ⟨dict0d, 256, c0, result_bytes.take 1, result_bytes⟩ (rest ++ [c]))
      from rfl]
    cases hg : assocGet dict0d c0 with
    | none => rw [hg] at h; exact Option.noConfusion h
    | some rb =>
      rw [hg] at h
      simp only [] at h
      simp only []
      rw [lzwDecodeLoop_append, h]
      show lzwDecodeLoop D [c] = lzwStepD D c
      cases hs : lzwStepD D c with
      | none =>
        rw [show lzwDecodeLoop D [c] =
          (match lzwStepD D c with
            | none => none
            | some st2 => lzwDecodeLoop st2 []) from rfl, hs]
      | some st2 =>
        rw [show lzwDecodeLoop D [c] =
          (match lzwStepD D c with
            | none => none
            | some st2 => lzwDecodeLoop st2 []) from rfl, hs]
        rfl

/-- Invariant of the encoder loop before the first emission: only the first
input byte has been consumed. -/
def EncPhase0 (st : LZWEnc) (consumed : List Nat) : Prop :=
  st.dictionary = dict0e ∧ st.dict_size = 256 ∧ st.result_codes = [] ∧
    ∃ x, x < 256 ∧ st.current_string = [x] ∧ consumed = [x]

/-- Invariant of the encoder loop once at least one code has been emitted:
the decoder run on the emitted codes succeeds and mirrors the encoder's
dictionary except for its most recent entry, whose key extends the phrase of
the last emitted code by the first pending byte. -/
def EncPhase1 (st : LZWEnc) (consumed : List Nat) : Prop :=
  ∃ (c1 : Nat) (cs : List Nat) (E : List (List Nat × Nat)) (D : LZWDec) (w : List Nat),
    st.result_codes = c1 :: cs ∧
    st.dictionary = dict0e ++ E ∧
    st.dict_size = 256 + E.length ∧
    E.map Prod.snd = List.range' 256 E.length ∧
    E ≠ [] ∧
    (st.dictionary.map Prod.fst).Nodup ∧
    st.current_string ≠ [] ∧
    (assocGet st.dictionary st.current_string).isSome ∧
    lzwDecodeRun (c1 :: cs) = some D ∧
    D.dictionary = dict0d ++ E.dropLast.map swapKV ∧
    D.dict_size = 255 + E.length ∧
    (D.dictionary.map Prod.fst).Nodup ∧
    (∀ code ∈ D.dictionary.map Prod.fst, code < D.dict_size) ∧
    assocGet D.dictionary D.old_code = some w ∧
    w ≠ [] ∧
    D.current_byte = w.take 1 ∧
    D.result_bytes ++ st.current_string = consumed ∧
    E.getLast? = some (w ++ st.current_string.take 1, 255 + E.length) ∧
    E.length ≤ D.result_bytes.length

def EncInv (st : LZWEnc) (consumed : List Nat) : Prop :=
  EncPhase0 st consumed ∨ EncPhase1 st consumed

/-- The decoder accepts exactly the code the encoder emits: its resolved
entry is the encoder's current string, and the dictionaries stay mirrored
with a one-entry lag. -/
theorem lzwStepD_emit
    {E : List (List Nat × Nat)} {D : LZWDec} {w cur : List Nat} {c : Nat}
    (hgetc : assocGet (dict0e ++ E) cur = some c)
    (hEne : E ≠ [])
    (hDdict : D.dictionary = dict0d ++ E.dropLast.map swapKV)
    (hDsize : D.dict_size = 255 + E.length)
    (hDnodup : (D.dictionary.map Prod.fst).Nodup)
    (hDcodes : ∀ code ∈ D.dictionary.map Prod.fst, code < D.dict_size)
    (hw : assocGet D.dictionary D.old_code = some w)
    (hwne : w ≠ [])
    (hcb : D.current_byte = w.take 1)
    (hlast : E.getLast? = some (w ++ cur.take 1, 255 + E.length))
    (hcurne : cur ≠ []) :
    lzwResolve D c = some cur ∧
    lzwStepD D c = some
      { dictionary := D.dictionary ++ [(D.dict_size, w ++ cur.take 1)]
        dict_size := D.dict_size + 1
        old_code := c
        current_byte := cur.take 1
        result_bytes := D.result_bytes ++ cur } ∧
    assocGet (D.dictionary ++ [(D.dict_size, w ++ cur.take 1)]) c = some cur ∧
    D.dictionary ++ [(D.dict_size, w ++ cur.take 1)] = dict0d ++ E.map swapKV := by
  have hEdec : E.dropLast ++ [(w ++ cur.take 1, 255 + E.length)] = E := by
    have h1 := List.dropLast_append_getLast hEne
    have h3 := List.getLast?_eq_getLast E hEne
    rw [hlast] at h3
    rw [(Option.some.inj h3).symm] at h1
    exact h1
  have hmemE_or : cur = [c] ∧ c < 256 ∨ (cur, c) ∈ E := by
    cases hd0 : assocGet dict0e cur with
    | some c0 =>
      have h2 := assocGet_append_left E hd0
      rw [hgetc] at h2
      have hc0 : c0 = c := (Option.some.inj h2).symm
      subst hc0
      exact Or.inl (assocGet_dict0e_some hd0)
    | none =>
      have h2 := assocGet_append_right E hd0
      rw [hgetc] at h2
      exact Or.inr (assocGet_mem h2.symm)
  -- first: the resolved entry is `cur`, and so is its lookup in the grown
  -- decoder dictionary
  have hkey : assocGet D.dictionary c = some cur ∨
      (assocGet D.dictionary c = none ∧ c = D.dict_size ∧ cur = w ++ cur.take 1) := by
    rcases hmemE_or with ⟨hcur1, hclt⟩ | hmemE
    · left
      rw [hDdict]
      refine assocGet_append_left _ ?_
      rw [assocGet_dict0d, if_pos hclt, hcur1]
    · rw [← hEdec] at hmemE
      rcases List.mem_append.1 hmemE with hmem1 | hmem2
      · left
        refine assocGet_of_mem_nodup hDnodup ?_
        rw [hDdict]
        exact List.mem_append_right _ (List.mem_map.2 ⟨(cur, c), hmem1, rfl⟩)
      · right
        simp only [List.mem_singleton, Prod.mk.injEq] at hmem2
        refine ⟨?_, by omega, hmem2.1⟩
        rw [assocGet_eq_none]
        intro hc
        have := hDcodes c hc
        omega
  have hres : lzwResolve D c = some cur := by
    rcases hkey with hsome | ⟨hnone, hcsz, hcureq⟩
    · rw [lzwResolve, hsome]
    · rw [lzwResolve, hnone]
      simp only []
      rw [if_pos hcsz, hw]
      simp only [Option.getD_some]
      rw [hcb]
      have htake : cur.take 1 = w.take 1 := by
        conv_lhs => rw [hcureq]
        exact take_one_append w _ hwne
      rw [← htake, ← hcureq]
  have hfresh : D.dict_size ∉ D.dictionary.map Prod.fst := fun hc =>
    absurd (hDcodes _ hc) (by omega)
  have hstepD : lzwStepD D c = some
      { dictionary := D.dictionary ++ [(D.dict_size, w ++ cur.take 1)]
        dict_size := D.dict_size + 1
        old_code := c
        current_byte := cur.take 1
        result_bytes := D.result_bytes ++ cur } := by
    rw [lzwStepD, hres]
    simp only [Option.map_some']
    rw [hw]
    simp only [Option.getD_some]
    rw [assocSet_fresh _ _ _ hfresh]
  have hgetnew : assocGet (D.dictionary ++ [(D.dict_size, w ++ cur.take 1)]) c = some cur := by
    rcases hkey with hsome | ⟨hnone, hcsz, hcureq⟩
    · exact assocGet_append_left _ hsome
    · rw [assocGet_append_right _ hnone, assocGet]
      rw [if_pos hcsz.symm, ← hcureq]
  refine ⟨hres, hstepD, hgetnew, ?_⟩
  rw [hDdict, hDsize]
  conv_rhs => rw [← hEdec]
  rw [List.map_append, ← List.append_assoc]
  rfl

/-- The loop invariant is preserved by each byte of the input. -/
theorem encInv_step {st : LZWEnc} {consumed : List Nat} (b : Nat) (hb : b < 256)
    (h : EncInv st consumed) : EncInv (lzwStep st b) (consumed ++ [b]) := by
  rcases h with h0 | h1
  · obtain ⟨hdict, hsize, hres, x, hx, hcur, hcons⟩ := h0
    have hcombn : assocGet st.dictionary (st.current_string ++ [b]) = none := by
      rw [hdict, hcur]
      exact assocGet_dict0e_long _ (by simp)
    have hfreshe : ([x] ++ [b]) ∉ dict0e.map Prod.fst :=
      (assocGet_eq_none _ _).1 (assocGet_dict0e_long _ (by simp))
    have hstep : lzwStep st b = ⟨dict0e ++ [([x] ++ [b], 256)], 257, [b], [x]⟩ := by
      simp only [lzwStep]
      rw [hcombn]
      simp only []
      rw [hdict, hcur, hsize, hres]
      rw [assocSet_fresh _ _ _ hfreshe]
      rw [if_pos (show ([x] : List Nat) ≠ [] by simp)]
      rw [assocGet_dict0e_singleton x hx]
      rfl
    rw [hstep, hcons]
    right
    refine ⟨x, [], [([x] ++ [b], 256)], ⟨dict0d, 256, x, [x].take 1, [x]⟩, [x],
      ?_, ?_, ?_, ?_, ?_, ?_, ?_, ?_, ?_, ?_, ?_, ?_, ?_, ?_, ?_, ?_, ?_, ?_, ?_⟩
    · rfl
    · rfl
    · rfl
    · rfl
    · simp
    · rw [show (⟨dict0e ++ [([x] ++ [b], 256)], 257, [b], [x]⟩ : LZWEnc).dictionary =
        dict0e ++ [([x] ++ [b], 256)] from rfl]
      rw [List.map_append, List.nodup_append]
      refine ⟨dict0e_keys_nodup, by simp, ?_⟩
      intro a ha hb2
      simp at hb2
      rw [hb2] at ha
      exact hfreshe ha
    · simp
    · rw [show (⟨dict0e ++ [([x] ++ [b], 256)], 257, [b], [x]⟩ : LZWEnc).dictionary =
        dict0e ++ [([x] ++ [b], 256)] from rfl]
      rw [show (⟨dict0e ++ [([x] ++ [b], 256)], 257, [b], [x]⟩ : LZWEnc).current_string =
        [b] from rfl]
      rw [assocGet_append_left _ (assocGet_dict0e_singleton b hb)]
      rfl
    · rw [show lzwDecodeRun [x] =
        (match assocGet dict0d x with
          | none => none
          | some result_bytes =>
            lzwDecodeLoop ⟨dict0d, 256, x, result_bytes.take 1, result_bytes⟩ [])
        from rfl]
      rw [assocGet_dict0d, if_pos hx]
      rfl
    · simp
    · rfl
    · exact dict0d_keys_nodup
    · exact dict0d_codes
    · rw [show (⟨dict0d, 256, x, [x].take 1, [x]⟩ : LZWDec).old_code = x from rfl]
      rw [show (⟨dict0d, 256, x, [x].take 1, [x]⟩ : LZWDec).dictionary = dict0d from rfl]
      rw [assocGet_dict0d, if_pos hx]
    · simp
    · rfl
    · rfl
    · rfl
    · simp
  · obtain ⟨c1, cs, E, D, w, hresc, hdict, hsize, hsnd, hEne, hnodup, hcurne, hisSome,
      hrun, hDdict, hDsize, hDnodup, hDcodes, hw, hwne, hcb, hrescur, hlast, hlen⟩ := h1
    by_cases hcomb : (assocGet st.dictionary (st.current_string ++ [b])).isSome
    · obtain ⟨v, hv⟩ := Option.isSome_iff_exists.1 hcomb
      have hstep : lzwStep st b = { st with current_string := st.current_string ++ [b] } := by
        simp only [lzwStep]
        rw [hv]
      rw [hstep]
      right
      refine ⟨c1, cs, E, D, w,
        ?_, ?_, ?_, ?_, ?_, ?_, ?_, ?_, ?_, ?_, ?_, ?_, ?_, ?_, ?_, ?_, ?_, ?_, ?_⟩
      · exact hresc
      · exact hdict
      · exact hsize
      · exact hsnd
      · exact hEne
      · exact hnodup
      · simp
      · show (assocGet st.dictionary (st.current_string ++ [b])).isSome
        rw [hv]
        rfl
      · exact hrun
      · exact hDdict
      · exact hDsize
      · exact hDnodup
      · exact hDcodes
      · exact hw
      · exact hwne
      · exact hcb
      · show D.result_bytes ++ (st.current_string ++ [b]) = consumed ++ [b]
        rw [← List.append_assoc, hrescur]
      · show E.getLast? = some (w ++ (st.current_string ++ [b]).take 1, 255 + E.length)
        rw [take_one_append _ _ hcurne]
        exact hlast
      · exact hlen
    · have hcombn : assocGet st.dictionary (st.current_string ++ [b]) = none := by
        cases hcg : assocGet st.dictionary (st.current_string ++ [b]) with
        | none => rfl
        | some v => rw [hcg] at hcomb; exact absurd rfl hcomb
      obtain ⟨c, hc⟩ := Option.isSome_iff_exists.1 hisSome
      have hgetc : assocGet (dict0e ++ E) st.current_string = some c := by
        rw [← hdict]
        exact hc
      obtain ⟨hresolve, hstepD, hgetnew, hdictnew⟩ :=
        lzwStepD_emit hgetc hEne hDdict hDsize hDnodup hDcodes hw hwne hcb hlast hcurne
      have hfreshe : (st.current_string ++ [b]) ∉ st.dictionary.map Prod.fst :=
        (assocGet_eq_none _ _).1 hcombn
      have hstep : lzwStep st b =
          ⟨assocSet st.dictionary (st.current_string ++ [b]) st.dict_size,
            st.dict_size + 1, [b], st.result_codes ++ [c]⟩ := by
        simp only [lzwStep]
        rw [hcombn]
        simp only []
        rw [if_pos hcurne, hc]
        rfl
      rw [hstep]
      right
      refine ⟨c1, cs ++ [c], E ++ [(st.current_string ++ [b], 256 + E.length)],
        ⟨D.dictionary ++ [(D.dict_size, w ++ st.current_string.take 1)],
          D.dict_size + 1, c, st.current_string.take 1,
          D.result_bytes ++ st.current_string⟩,
        st.current_string,
        ?_, ?_, ?_, ?_, ?_, ?_, ?_, ?_, ?_, ?_, ?_, ?_, ?_, ?_, ?_, ?_, ?_, ?_, ?_⟩
      · show st.result_codes ++ [c] = c1 :: (cs ++ [c])
        rw [hresc, List.cons_append]
      · show assocSet st.dictionary (st.current_string ++ [b]) st.dict_size =
          dict0e ++ (E ++ [(st.current_string ++ [b], 256 + E.length)])
        rw [assocSet_fresh _ _ _ hfreshe, hdict, hsize, List.append_assoc]
      · show st.dict_size + 1 = 256 + (E ++ [(st.current_string ++ [b], 256 + E.length)]).length
        rw [hsize, List.length_append, List.length_singleton]
        omega
      · show (E ++ [(st.current_string ++ [b], 256 + E.length)]).map Prod.snd =
          List.range' 256 (E ++ [(st.current_string ++ [b], 256 + E.length)]).length
        rw [List.map_append, hsnd, List.length_append, List.length_singleton,
          List.range'_concat]
        simp
      · simp
      · show ((assocSet st.dictionary (st.current_string ++ [b]) st.dict_size).map
          Prod.fst).Nodup
        rw [assocSet_fresh _ _ _ hfreshe, List.map_append, List.nodup_append]
        refine ⟨hnodup, by simp, ?_⟩
        intro a ha hb2
        simp at hb2
        rw [hb2] at ha
        exact hfreshe ha
      · simp
      · show (assocGet (assocSet st.dictionary (st.current_string ++ [b]) st.dict_size)
          [b]).isSome
        rw [assocSet_fresh _ _ _ hfreshe, hdict, List.append_assoc]
        rw [assocGet_append_left _ (assocGet_dict0e_singleton b hb)]
        rfl
      · show lzwDecodeRun (c1 :: (cs ++ [c])) = _
        rw [← List.cons_append, lzwDecodeRun_snoc hrun c]
        exact hstepD
      · show D.dictionary ++ [(D.dict_size, w ++ st.current_string.take 1)] =
          dict0d ++ ((E ++ [(st.current_string ++ [b], 256 + E.length)]).dropLast.map swapKV)
        rw [List.dropLast_concat]
        exact hdictnew
      · show D.dict_size + 1 =
          255 + (E ++ [(st.current_string ++ [b], 256 + E.length)]).length
        rw [hDsize, List.length_append, List.length_singleton]
        omega
      · show ((D.dictionary ++ [(D.dict_size, w ++ st.current_string.take 1)]).map
          Prod.fst).Nodup
        rw [List.map_append, List.nodup_append]
        refine ⟨hDnodup, by simp, ?_⟩
        intro a ha hb2
        simp at hb2
        rw [hb2] at ha
        exact absurd (hDcodes _ ha) (by omega)
      · intro code hcode
        show code < D.dict_size + 1
        rw [List.map_append] at hcode
        rcases List.mem_append.1 hcode with hmem | hmem
        · have := hDcodes _ hmem
          omega
        · simp at hmem
          omega
      · exact hgetnew
      · exact hcurne
      · rfl
      · show D.result_bytes ++ st.current_string ++ [b] = consumed ++ [b]
        rw [hrescur]
      · show (E ++ [(st.current_string ++ [b], 256 + E.length)]).getLast? =
          some (st.current_string ++ [b].take 1,
            255 + (E ++ [(st.current_string ++ [b], 256 + E.length)]).length)
        rw [List.getLast?_concat, List.length_append, List.length_singleton,
          show 255 + (E.length + 1) = 256 + E.length from by omega]
        rfl
      · show (E ++ [(st.current_string ++ [b], 256 + E.length)]).length ≤
          (D.result_bytes ++ st.current_string).length
        rw [List.length_append, List.length_singleton, List.length_append]
        have := List.length_pos.2 hcurne
        omega

theorem encInv_foldl : ∀ (bs : List Nat), (∀ b ∈ bs, b < 256) →
    ∀ st consumed, EncInv st consumed → EncInv (bs.foldl lzwStep st) (consumed ++ bs) := by
  intro bs
  induction bs with
  | nil =>
    intro _ st consumed h
    simpa using h
  | cons b t ih =>
    intro hbs st consumed h
    rw [List.foldl_cons]
    have h2 := encInv_step b (hbs b (List.mem_cons_self _ _)) h
    have h3 := ih (fun x hx => hbs x (List.mem_cons_of_mem _ hx)) _ _ h2
    rw [List.append_assoc, List.singleton_append] at h3
    exact h3

theorem encInv_first (b : Nat) (hb : b < 256) :
    EncInv (lzwStep ⟨dict0e, 256, [], []⟩ b) [b] := by
  have hstep : lzwStep ⟨dict0e, 256, [], []⟩ b = ⟨dict0e, 256, [b], []⟩ := by
    simp only [lzwStep]
    rw [show ([] : List Nat) ++ [b] = [b] from rfl, assocGet_dict0e_singleton b hb]
  rw [hstep]
  exact Or.inl ⟨rfl, rfl, rfl, b, hb, rfl, rfl⟩

/-- After a non-empty encode: the final encoder dictionary is `dict0e ++ E`,
the decoder run on the emitted codes succeeds, its result is the input byte
string, and its final dictionary is the exact mirror `dict0d ++ E.map swapKV`
of the same size, with at most one entry per input byte. -/
theorem lzw_final (text : String) (h : text ≠ "") :
    ∃ E D,
      (LZW.encodeState text).dictionary = dict0e ++ E ∧
      (LZW.encodeState text).dict_size = 256 + E.length ∧
      E.length ≤ (utf8Encode text).length ∧
      lzwDecodeRun (LZW.encode text) = some D ∧
      D.dictionary = dict0d ++ E.map swapKV ∧
      D.dict_size = 256 + E.length ∧
      D.result_bytes = utf8Encode text := by
  have hne := utf8Encode_ne_nil text h
  have hlt := utf8Encode_lt256 text
  match hbytes : utf8Encode text with
  | [] => exact absurd hbytes hne
  | b0 :: bs =>
    have hb0 : b0 < 256 := hlt b0 (by rw [hbytes]; exact List.mem_cons_self _ _)
    have hinv0 := encInv_first b0 hb0
    have hinv := encInv_foldl bs
      (fun x hx => hlt x (by rw [hbytes]; exact List.mem_cons_of_mem _ hx)) _ _ hinv0
    rw [List.singleton_append] at hinv
    have hfold : LZW.encodeState text = bs.foldl lzwStep (lzwStep ⟨dict0e, 256, [], []⟩ b0) := by
      rw [LZW.encodeState, hbytes, List.foldl_cons]
    rw [← hfold] at hinv
    have henc : LZW.encode text =
        (if (LZW.encodeState text).current_string ≠ [] then
          (LZW.encodeState text).result_codes ++
            [(assocGet (LZW.encodeState text).dictionary
              (LZW.encodeState text).current_string).getD 0]
        else (LZW.encodeState text).result_codes) := by
      rw [LZW.encode, if_neg h]
    rcases hinv with h0 | h1
    · obtain ⟨hdict, hsize, hres, x, hx, hcur, hcons⟩ := h0
      refine ⟨[], ⟨dict0d, 256, x, [x].take 1, [x]⟩, ?_, ?_, ?_, ?_, ?_, ?_, ?_⟩
      · rw [hdict, List.append_nil]
      · rw [hsize]
        rfl
      · simp
      · rw [henc, if_pos (by rw [hcur]; simp), hres, hcur, hdict,
          assocGet_dict0e_singleton x hx]
        rw [show ([] : List Nat) ++ [(some x).getD 0] = [x] from rfl]
        rw [show lzwDecodeRun [x] =
          (match assocGet dict0d x with
            | none => none
            | some result_bytes =>
              lzwDecodeLoop ⟨dict0d, 256, x, result_bytes.take 1, result_bytes⟩ [])
          from rfl]
        rw [assocGet_dict0d, if_pos hx]
        rfl
      · simp
      · rfl
      · rw [show (⟨dict0d, 256, x, [x].take 1, [x]⟩ : LZWDec).result_bytes = [x] from rfl]
        rw [hcons]
    · obtain ⟨c1, cs, E, D, w, hresc, hdict, hsize, hsnd, hEne, hnodup, hcurne, hisSome,
        hrun, hDdict, hDsize, hDnodup, hDcodes, hw, hwne, hcb, hrescur, hlast, hlen⟩ := h1
      obtain ⟨c, hc⟩ := Option.isSome_iff_exists.1 hisSome
      have hgetc : assocGet (dict0e ++ E) (LZW.encodeState text).current_string = some c := by
        rw [← hdict]
        exact hc
      obtain ⟨hresolve, hstepD, hgetnew, hdictnew⟩ :=
        lzwStepD_emit hgetc hEne hDdict hDsize hDnodup hDcodes hw hwne hcb hlast hcurne
      have hencodes : LZW.encode text = (c1 :: cs) ++ [c] := by
        rw [henc, if_pos hcurne, hresc, hc]
        rfl
      refine ⟨E, ⟨D.dictionary ++ [(D.dict_size, w ++ (LZW.encodeState text).current_string.take 1)],
        D.dict_size + 1, c, (LZW.encodeState text).current_string.take 1,
        D.result_bytes ++ (LZW.encodeState text).current_string⟩, hdict, hsize, ?_, ?_, ?_, ?_, ?_⟩
      · have hc1 := List.length_pos.2 hcurne
        have hlen2 : (b0 :: bs).length = D.result_bytes.length +
            (LZW.encodeState text).current_string.length := by
          rw [← hrescur, List.length_append]
        omega
      · rw [hencodes, lzwDecodeRun_snoc hrun c]
        exact hstepD
      · exact hdictnew
      · show D.dict_size + 1 = 256 + E.length
        rw [hDsize]
        omega
      · rw [show (⟨D.dictionary ++ [(D.dict_size, w ++ (LZW.encodeState text).current_string.take 1)],
          D.dict_size + 1, c, (LZW.encodeState text).current_string.take 1,
          D.result_bytes ++ (LZW.encodeState text).current_string⟩ : LZWDec).result_bytes =
          D.result_bytes ++ (LZW.encodeState text).current_string from rfl]
        rw [hrescur]

/-- `LZW.decode(LZW.encode(text)) == text` for every string. -/
theorem lzw_roundtrip (text : String) : LZW.decode (LZW.encode text) = some text := by
  by_cases h : text = ""
  · rw [h, show LZW.encode "" = [] from by rw [LZW.encode, if_pos rfl]]
    rfl
  · obtain ⟨E, D, _, _, _, hrun, _, _, hres⟩ := lzw_final text h
    have hencne : LZW.encode text ≠ [] := by
      intro hc
      rw [hc] at hrun
      exact Option.noConfusion hrun
    match hE : LZW.encode text with
    | [] => exact absurd hE hencne
    | c0 :: rest =>
      rw [hE] at hrun
      rw [show LZW.decode (c0 :: rest) =
        (match lzwDecodeRun (c0 :: rest) with
          | none => none
          | some st => (utf8Decode st.result_bytes).map String.mk) from rfl]
      rw [hrun]
      simp only []
      rw [hres, utf8Decode_utf8Encode]
      rfl

/-- Walking the concatenated paths of codebook entries followed by a
remainder emits the symbols and continues from the root. -/
theorem treeWalk_entries_rest (g : HNode) (hwf : WF g) (hchar : g.char = none) :
    ∀ (es : List (String × List Char)), (∀ e ∈ es, e ∈ codesListC g) →
      ∀ rest acc, treeWalk g (es.flatMap Prod.snd ++ rest) g acc =
        treeWalk g rest g (acc ++ es.map Prod.fst) := by
  intro es
  induction es with
  | nil =>
    intro _ rest acc
    simp
  | cons e t ih =>
    intro hmem rest acc
    obtain ⟨s, p⟩ := e
    rw [List.flatMap_cons, List.append_assoc]
    rw [treeWalk_code g g hwf hchar s p (hmem _ (List.mem_cons_self _ _))]
    rw [ih (fun e he => hmem e (List.mem_cons_of_mem _ he))]
    rw [List.map_cons, List.append_assoc]
    rfl

/-- Walking a proper prefix of a codebook path from an internal node neither
emits a symbol nor fails: the walk ends mid-traversal. -/
theorem treeWalk_stops_short (g : HNode) :
    ∀ (t : HNode), WF t → t.char = none →
      ∀ (s : String) (p q : List Char), (s, p) ∈ codesListC t →
        q <+: p → q ≠ p →
        ∀ acc, treeWalk g q t acc = some acc := by
  intro t hwf
  induction hwf with
  | leaf c f => intro hchar; simp [HNode.char] at hchar
  | node f l r hwl hwr ihl ihr =>
    intro _ s p q hp hpre hne acc
    cases q with
    | nil => exact treeWalk_nil g _ acc
    | cons bit q2 =>
      rw [codesListC_node] at hp
      simp only [List.nil_append, List.mem_append, List.mem_map] at hp
      rcases hp with ⟨⟨s1, p1⟩, he, heq⟩ | ⟨⟨s1, p1⟩, he, heq⟩
      · injection heq with h1 h2
        subst h1
        subst h2
        obtain ⟨hb, hq⟩ := List.cons_prefix_cons.1 hpre
        subst hb
        rw [treeWalk_cons]
        simp only [if_pos rfl, HNode.left]
        cases hwl with
        | leaf c0 f0 =>
          have hmem : s1 = c0 ∧ p1 = [] := by
            have h3 := he
            rw [codesListC_node] at h3
            simp at h3
            exact h3
          obtain ⟨rfl, rfl⟩ := hmem
          have hq2 : q2 = [] := List.prefix_nil.1 hq
          subst hq2
          exact absurd rfl hne
        | node fl ll rl hwll hwrl =>
          simp only [HNode.char]
          exact ihl rfl s1 p1 q2 he hq (fun hc => hne (by rw [hc])) acc
      · injection heq with h1 h2
        subst h1
        subst h2
        obtain ⟨hb, hq⟩ := List.cons_prefix_cons.1 hpre
        subst hb
        rw [treeWalk_cons]
        have hne2 : ('1' : Char) ≠ '0' := by decide
        simp only [if_neg hne2, HNode.right]
        cases hwr with
        | leaf c0 f0 =>
          have hmem : s1 = c0 ∧ p1 = [] := by
            have h3 := he
            rw [codesListC_node] at h3
            simp at h3
            exact h3
          obtain ⟨rfl, rfl⟩ := hmem
          have hq2 : q2 = [] := List.prefix_nil.1 hq
          subst hq2
          exact absurd rfl hne
        | node fr lr rr hwlr hwrr =>
          simp only [HNode.char]
          exact ihr rfl s1 p1 q2 he hq (fun hc => hne (by rw [hc])) acc

theorem bstrip_jsonDumps (freq : List (String × Int)) :
    bstrip (jsonDumps freq ++ [10]) = jsonDumps freq := by
  refine bstrip_append_newline _ ?_ ?_
  · intro b hb
    rw [jsonDumps] at hb
    simp at hb
    subst hb
    decide
  · intro b hb
    rw [jsonDumps] at hb
    rw [show (123 : Nat) :: dumpItems freq ++ [125] =
      ((123 : Nat) :: dumpItems freq) ++ [125] from rfl] at hb
    rw [List.getLast?_concat] at hb
    simp at hb
    subst hb
    decide

/-- On an entry list with distinct symbols, `build_codes` from the root is
exactly the preorder entry list with paths rendered as strings. -/
theorem build_codes_entries (root : HNode)
    (hnd : ((codesListC root).map Prod.fst).Nodup) :
    build_codes (some root) "" [] =
      (codesListC root).map (fun e => (e.1, String.mk e.2)) := by
  rw [build_codes_eq]
  have hemp : ∀ s : String, ("" : String) ++ s = s := fun s => by
    apply String.ext
    simp
  simp only [hemp]
  have hfresh := foldl_assocSet_fresh
    ((codesListC root).map (fun e => (e.1, String.mk e.2))) []
    (by
      simp only [List.map_nil, List.nil_append, List.map_map]
      rw [show (Prod.fst ∘ fun (e : String × List Char) => (e.1, String.mk e.2)) =
        Prod.fst from by funext e; rfl]
      exact hnd)
  rw [List.foldl_map] at hfresh
  simp only [List.nil_append] at hfresh
  exact hfresh

/-- C5: for every non-empty text, the frequency table parsed back from the
artifact's header equals the table built at encode time, and
`build_tree_from_frequency` on that recovered table yields exactly the tree
`build_huffman_tree` produced at encode time (both run the same heap loop on
the same table). -/
theorem header_frequency_and_tree_match (text : List Char) (h : text ≠ []) :
    jsonLoads (bstrip (readline (fileOf text)).1) = some ((build_huffman_tree text).2) ∧
    build_tree_from_frequency ((build_huffman_tree text).2) = (build_huffman_tree text).1 := by
  have hfne : counter text ≠ [] := counter_ne_nil h
  obtain ⟨root, hroot, _, _⟩ := buildRoot_spec (counter text) hfne
  have hbht : build_huffman_tree text = (some root, counter text) := by
    rw [build_huffman_tree, if_neg h]
    show ((treeLoop (heapify (initNodes (counter text)))).head?, counter text) = _
    rw [hroot]
    rfl
  have hbtf : build_tree_from_frequency (counter text) = some root := by
    rw [build_tree_from_frequency, if_neg hfne]
    show (match treeLoop (heapify (initNodes (counter text))) with
          | [] => some (HNode.mk none 0 none none)
          | r :: _ => some r) = some root
    rw [hroot]
  constructor
  · have hfreqOf : freqOf text = counter text := by rw [freqOf, hbht]
    have hr1 : readline (fileOf text) = (jsonDumps (counter text) ++ [10],
        natDigits (paddingOf (encodedOf text).length) ++ 10 :: byteArrayOf text) := by
      rw [fileOf, hfreqOf]
      exact readline_append _ _ (jsonDumps_no_newline (counter text))
    rw [show (readline (fileOf text)).1 = jsonDumps (counter text) ++ [10] from by rw [hr1]]
    rw [bstrip_jsonDumps, jsonLoads_jsonDumps _ (counter_keys_nodup text), hbht]
  · rw [hbht]
    show build_tree_from_frequency (counter text) = some root
    exact hbtf

/-- C5 witness at the concrete text `['a', 'b']`. -/
theorem header_frequency_and_tree_match_witness :
    (['a', 'b'] : List Char) ≠ [] ∧
    (jsonLoads (bstrip (readline (fileOf ['a', 'b'])).1) =
        some ((build_huffman_tree ['a', 'b']).2) ∧
      build_tree_from_frequency ((build_huffman_tree ['a', 'b']).2) =
        (build_huffman_tree ['a', 'b']).1) :=
  ⟨by decide, header_frequency_and_tree_match ['a', 'b'] (by decide)⟩

/-- C6: for every non-empty frequency table with distinct symbols, the tree
it rebuilds yields a codebook with exactly one code per leaf symbol (the
table's keys, without duplicates) in which no code is a prefix of another. -/
theorem codebook_prefix_free (freq : List (String × Int))
    (hnd : (freq.map Prod.fst).Nodup) (hne : freq ≠ []) :
    ∃ root, build_tree_from_frequency freq = some root ∧
      List.Perm ((build_codes (some root) "" []).map Prod.fst) (freq.map Prod.fst) ∧
      ((build_codes (some root) "" []).map Prod.fst).Nodup ∧
      (build_codes (some root) "" []).Pairwise
        (fun a b => ¬ (a.2.data <+: b.2.data) ∧ ¬ (b.2.data <+: a.2.data)) := by
  obtain ⟨root, hroot, hwf, hperm⟩ := buildRoot_spec freq hne
  have hbtf : build_tree_from_frequency freq = some root := by
    rw [build_tree_from_frequency, if_neg hne]
    show (match treeLoop (heapify (initNodes freq)) with
          | [] => some (HNode.mk none 0 none none)
          | r :: _ => some r) = some root
    rw [hroot]
  have hnd2 : ((codesListC root).map Prod.fst).Nodup := by
    rw [codesListC_keys]
    exact hperm.nodup_iff.2 hnd
  have hcb := build_codes_entries root hnd2
  have hkeys : (build_codes (some root) "" []).map Prod.fst = syms root := by
    rw [hcb, List.map_map]
    rw [show (Prod.fst ∘ fun (e : String × List Char) => (e.1, String.mk e.2)) =
      Prod.fst from by funext e; rfl]
    rw [codesListC_keys]
  refine ⟨root, hbtf, ?_, ?_, ?_⟩
  · rw [hkeys]
    exact hperm
  · rw [hkeys]
    exact hperm.nodup_iff.2 hnd
  · rw [hcb, List.pairwise_map]
    refine (codesListC_prefixFree root hwf).imp ?_
    intro a b hab
    exact hab

/-- C6 witness at the concrete table `{"a": 1, "b": 1}`. -/
theorem codebook_prefix_free_witness :
    (([("a", (1 : Int)), ("b", 1)].map Prod.fst).Nodup ∧
      ([("a", (1 : Int)), ("b", 1)] : List (String × Int)) ≠ []) ∧
    (∃ root, build_tree_from_frequency [("a", (1 : Int)), ("b", 1)] = some root ∧
      List.Perm ((build_codes (some root) "" []).map Prod.fst)
        ([("a", (1 : Int)), ("b", 1)].map Prod.fst) ∧
      ((build_codes (some root) "" []).map Prod.fst).Nodup ∧
      (build_codes (some root) "" []).Pairwise
        (fun a b => ¬ (a.2.data <+: b.2.data) ∧ ¬ (b.2.data <+: a.2.data))) :=
  ⟨⟨by decide, by decide⟩,
    codebook_prefix_free [("a", (1 : Int)), ("b", 1)] (by decide) (by decide)⟩

/-- C1 (amended: restricted to non-empty inputs, since the empty string
writes no artifact at all): decompressing the artifact written by
`compress_to_file` for any non-empty text returns exactly that text. -/
theorem huffman_roundtrip_nonempty (text : List Char) (h : text ≠ []) :
    ∃ nbits file, compress_to_file text = (nbits, some file) ∧
      decompress_from_file file = some (String.mk text) :=
  ⟨(byteArrayOf text).length * 8, fileOf text, compress_to_file_eq text h,
    decompress_fileOf text h⟩

/-- C1 witness at the concrete text `['A', 'B', 'A']`. -/
theorem huffman_roundtrip_nonempty_witness :
    (['A', 'B', 'A'] : List Char) ≠ [] ∧
    (∃ nbits file, compress_to_file ['A', 'B', 'A'] = (nbits, some file) ∧
      decompress_from_file file = some (String.mk ['A', 'B', 'A'])) :=
  ⟨by decide, huffman_roundtrip_nonempty ['A', 'B', 'A'] (by decide)⟩

/-- C1 counterexample: for the empty string — a member of the claimed input
family — `compress_to_file` returns 0 without producing any artifact, so no
file exists from which decompression could return the empty string. -/
theorem huffman_roundtrip_empty_counterexample :
    compress_to_file ([] : List Char) = (0, none) := rfl

/-- C10: on the empty input text `compress_to_file` returns 0 and performs
no write: it produces no file content at all (no header, no body). -/
theorem compress_empty_no_write :
    (compress_to_file ([] : List Char)).1 = 0 ∧
    (compress_to_file ([] : List Char)).2 = none :=
  ⟨rfl, rfl⟩

theorem paddingOf_spec (L : Nat) :
    paddingOf L = (8 - L % 8) % 8 ∧ (L % 8 = 0 → paddingOf L = 0) ∧
    (L % 8 ≠ 0 → 1 ≤ paddingOf L ∧ paddingOf L ≤ 7 ∧ paddingOf L = 8 - L % 8) := by
  have hdef : paddingOf L = if 8 - L % 8 = 8 then 0 else 8 - L % 8 := rfl
  refine ⟨?_, fun h => ?_, fun h => ?_⟩
  · rw [hdef]
    split <;> omega
  · rw [hdef]
    split <;> omega
  · rw [hdef]
    refine ⟨?_, ?_, ?_⟩ <;> (split <;> omega)

/-- C8: for every non-empty text the padding recorded in the artifact's
second header line is the program's `paddingOf` of the unpadded bit length,
which equals `(8 - bitlen % 8) % 8`: it is 0 (never 8) when the bit length is
a multiple of 8, and otherwise lies in `[1, 7]` and equals
`8 - bitlen % 8`. -/
theorem padding_recorded_correct (text : List Char) (h : text ≠ []) :
    fileOf text = jsonDumps (freqOf text) ++
      (10 :: (natDigits (paddingOf (encodedOf text).length) ++ (10 :: byteArrayOf text))) ∧
    paddingOf (encodedOf text).length = (8 - (encodedOf text).length % 8) % 8 ∧
    ((encodedOf text).length % 8 = 0 → paddingOf (encodedOf text).length = 0) ∧
    ((encodedOf text).length % 8 ≠ 0 →
      1 ≤ paddingOf (encodedOf text).length ∧ paddingOf (encodedOf text).length ≤ 7 ∧
      paddingOf (encodedOf text).length = 8 - (encodedOf text).length % 8) :=
  ⟨rfl, (paddingOf_spec _).1, (paddingOf_spec _).2.1, (paddingOf_spec _).2.2⟩

/-- C8 witness at the concrete text `['A']`. -/
theorem padding_recorded_correct_witness :
    (['A'] : List Char) ≠ [] ∧
    (fileOf ['A'] = jsonDumps (freqOf ['A']) ++
      (10 :: (natDigits (paddingOf (encodedOf ['A']).length) ++ (10 :: byteArrayOf ['A']))) ∧
    paddingOf (encodedOf ['A']).length = (8 - (encodedOf ['A']).length % 8) % 8 ∧
    ((encodedOf ['A']).length % 8 = 0 → paddingOf (encodedOf ['A']).length = 0) ∧
    ((encodedOf ['A']).length % 8 ≠ 0 →
      1 ≤ paddingOf (encodedOf ['A']).length ∧ paddingOf (encodedOf ['A']).length ≤ 7 ∧
      paddingOf (encodedOf ['A']).length = 8 - (encodedOf ['A']).length % 8)) :=
  ⟨by decide, padding_recorded_correct ['A'] (by decide)⟩

/-- A failed parse of either header line makes `decompress_from_file` return
the empty string. -/
theorem decompress_header_parse_fail {file : List Nat}
    (h : jsonLoads (bstrip (readline file).1) = none ∨
      parseIntBytes (bstrip (readline (readline file).2).1) = none) :
    decompress_from_file file = some "" := by
  simp only [decompress_from_file]
  rcases h with h | h
  · rw [h]
  · cases h1 : jsonLoads (bstrip (readline file).1) with
    | none => rfl
    | some freq => rw [h]

/-- C3 (corrected): on any artifact whose frequency line is not valid JSON
or whose padding line is not an integer, `decompress_from_file` catches the
parse error and returns the empty string — it does not surface a distinct,
inspectable failure, and it does substitute empty output for the detected
error. -/
theorem header_parse_failure_returns_empty (file : List Nat)
    (h : jsonLoads (bstrip (readline file).1) = none ∨
      parseIntBytes (bstrip (readline (readline file).2).1) = none) :
    decompress_from_file file = some "" :=
  decompress_header_parse_fail h

/-- C3 witness at the concrete file of two blank lines. -/
theorem header_parse_failure_returns_empty_witness :
    (jsonLoads (bstrip (readline [10, 10]).1) = none ∨
      parseIntBytes (bstrip (readline (readline [10, 10]).2).1) = none) ∧
    decompress_from_file [10, 10] = some "" :=
  ⟨Or.inl (by decide), header_parse_failure_returns_empty [10, 10] (Or.inl (by decide))⟩

/-- The bytes of the artifact `{"A": 1}\nx\n\x00`: a valid frequency line
followed by the unparsable padding line `x` and one body byte. -/
def artifactC3 : List Nat := [123, 34, 65, 34, 58, 32, 49, 125, 10, 120, 10, 0]

/-- C3 counterexample: on an artifact whose padding line is the non-numeric
`x`, decompression succeeds with the empty string instead of failing with a
distinct, inspectable format error. -/
theorem header_parse_failure_counterexample :
    decompress_from_file artifactC3 = some "" :=
  decompress_header_parse_fail (Or.inr (by decide))

/-- C2: LZW decoding inverts LZW encoding for every string; in particular
encoding `"aaaa"` emits `[97, 256, 97]`, where 256 is not an initial
dictionary code but the decoder's next assignable code when it is reached,
the self-reference rule synthesizes its entry as
`dictionary[old_code] + current_byte = [97] + [97]`, and decoding the
sequence reconstructs `"aaaa"` exactly. -/
theorem lzw_roundtrip_with_selfref :
    (∀ T : String, LZW.decode (LZW.encode T) = some T) ∧
    LZW.encode "aaaa" = [97, 256, 97] ∧
    assocGet dict0d 256 = none ∧
    lzwResolve ⟨dict0d, 256, 97, [97], [97]⟩ 256 = some [97, 97] ∧
    LZW.decode [97, 256, 97] = some "aaaa" := by
  have henc : LZW.encode "aaaa" = [97, 256, 97] := by decide
  refine ⟨lzw_roundtrip, henc, by decide, by decide, ?_⟩
  rw [← henc]
  exact lzw_roundtrip "aaaa"

/-- C7: in `LZW.decode`'s loop a code fails exactly when it is neither in
the decoder's dictionary nor equal to the next assignable code `dict_size`;
when it is absent but equals `dict_size` it is synthesized as
`dictionary[old_code] + current_byte` (the previous sequence extended by its
first byte); and the loop on `c :: cs` returns the `ValueError` exactly when
this code fails or the continued loop does. -/
theorem lzw_decode_unknown_code (st : LZWDec) (c : Nat) (cs : List Nat) :
    (lzwResolve st c = none ↔ assocGet st.dictionary c = none ∧ c ≠ st.dict_size) ∧
    (assocGet st.dictionary c = none → c = st.dict_size →
      lzwResolve st c =
        some ((assocGet st.dictionary st.old_code).getD [] ++ st.current_byte)) ∧
    (lzwDecodeLoop st (c :: cs) = none ↔
      lzwResolve st c = none ∨
        ∃ st2, lzwStepD st c = some st2 ∧ lzwDecodeLoop st2 cs = none) := by
  refine ⟨?_, ?_, ?_⟩
  · constructor
    · intro h
      rw [lzwResolve] at h
      cases hg : assocGet st.dictionary c with
      | some e =>
        rw [hg] at h
        simp only [] at h
        exact Option.noConfusion h
      | none =>
        rw [hg] at h
        simp only [] at h
        refine ⟨rfl, ?_⟩
        intro hc
        rw [if_pos hc] at h
        exact Option.noConfusion h
    · rintro ⟨h1, h2⟩
      rw [lzwResolve, h1]
      simp only []
      rw [if_neg h2]
  · intro h1 h2
    rw [lzwResolve, h1]
    simp only []
    rw [if_pos h2]
  · rw [show lzwDecodeLoop st (c :: cs) =
      (match lzwStepD st c with
        | none => none
        | some st2 => lzwDecodeLoop st2 cs) from rfl]
    constructor
    · intro h
      cases hs : lzwStepD st c with
      | none =>
        left
        rw [lzwStepD] at hs
        exact Option.map_eq_none'.1 hs
      | some st2 =>
        right
        rw [hs] at h
        exact ⟨st2, rfl, h⟩
    · rintro (h | ⟨st2, hs, h2⟩)
      · rw [show lzwStepD st c = none from by rw [lzwStepD, h]; rfl]
      · rw [hs]
        exact h2

/-- C7 witness: the state reached after the first code of `[97, 256]` and
the self-reference code 256. -/
theorem lzw_decode_unknown_code_witness :
    (assocGet (⟨dict0d, 256, 97, [97], [97]⟩ : LZWDec).dictionary 256 = none) ∧
    ((256 : Nat) = (⟨dict0d, 256, 97, [97], [97]⟩ : LZWDec).dict_size) ∧
    lzwResolve ⟨dict0d, 256, 97, [97], [97]⟩ 256 =
      some ((assocGet (⟨dict0d, 256, 97, [97], [97]⟩ : LZWDec).dictionary
        (⟨dict0d, 256, 97, [97], [97]⟩ : LZWDec).old_code).getD [] ++
        (⟨dict0d, 256, 97, [97], [97]⟩ : LZWDec).current_byte) :=
  ⟨by decide, rfl,
    (lzw_decode_unknown_code ⟨dict0d, 256, 97, [97], [97]⟩ 256 []).2.1 (by decide) rfl⟩

/-- C9: after encoding N input bytes the encoder's dictionary has grown from
its 256 seeds by at most N entries (`dict_size ≤ 256 + N`), and the decoder
run on the emitted codes finishes with the exact mirror dictionary
`dict0d ++ E.map swapKV` — the same entries with keys and values swapped —
of the same size. -/
theorem lzw_dictionary_growth (text : String) (h : text ≠ "") :
    ∃ E D,
      (LZW.encodeState text).dictionary = dict0e ++ E ∧
      (LZW.encodeState text).dict_size = 256 + E.length ∧
      (LZW.encodeState text).dict_size ≤ 256 + (utf8Encode text).length ∧
      lzwDecodeRun (LZW.encode text) = some D ∧
      D.dictionary = dict0d ++ E.map swapKV ∧
      D.dict_size = (LZW.encodeState text).dict_size ∧
      D.dictionary.length = (LZW.encodeState text).dictionary.length := by
  obtain ⟨E, D, h1, h2, h3, h4, h5, h6, _⟩ := lzw_final text h
  refine ⟨E, D, h1, h2, ?_, h4, h5, ?_, ?_⟩
  · rw [h2]
    omega
  · rw [h6, h2]
  · rw [h5, h1]
    simp [dict0d, dict0e]

/-- C9 witness at the concrete text `"ab"`. -/
theorem lzw_dictionary_growth_witness :
    ("ab" : String) ≠ "" ∧
    (∃ E D,
      (LZW.encodeState "ab").dictionary = dict0e ++ E ∧
      (LZW.encodeState "ab").dict_size = 256 + E.length ∧
      (LZW.encodeState "ab").dict_size ≤ 256 + (utf8Encode "ab").length ∧
      lzwDecodeRun (LZW.encode "ab") = some D ∧
      D.dictionary = dict0d ++ E.map swapKV ∧
      D.dict_size = (LZW.encodeState "ab").dict_size ∧
      D.dictionary.length = (LZW.encodeState "ab").dictionary.length) :=
  ⟨by decide, lzw_dictionary_growth "ab" (by decide)⟩

/-- C4 (corrected): when the unpadded bit sequence ends mid-traversal on a
tree with at least two symbols, the bit walk silently returns the partially
decoded prefix — no failure is raised; and when the parsed table is empty
(no tree can be rebuilt), the result is the empty string even though body
data may be present. -/
theorem truncated_stream_partial_output :
    (∀ (root : HNode), WF root → root.char = none →
      ∀ (es : List (String × List Char)), (∀ e ∈ es, e ∈ codesListC root) →
      ∀ (s : String) (p q : List Char), (s, p) ∈ codesListC root → q <+: p → q ≠ p →
        treeWalk root (es.flatMap Prod.snd ++ q) root [] = some (es.map Prod.fst)) ∧
    (∀ (file : List Nat) (padding : Int),
      jsonLoads (bstrip (readline file).1) = some [] →
      parseIntBytes (bstrip (readline (readline file).2).1) = some padding →
      decompress_from_file file = some "") := by
  constructor
  · intro root hwf hchar es hes s p q hp hpre hne
    rw [treeWalk_entries_rest root hwf hchar es hes]
    rw [treeWalk_stops_short root root hwf hchar s p q hp hpre hne]
    rw [List.nil_append]
  · intro file padding h1 h2
    simp only [decompress_from_file]
    rw [h1, h2]
    simp only []
    rw [show build_tree_from_frequency [] = none from rfl]

/-- The leaves and internal nodes of the tree the heap loop builds for the
table `{"A": 2, "B": 1, "C": 1}`. -/
def nodeA2 : HNode := .mk (some "A") 2 none none

def nodeB1 : HNode := .mk (some "B") 1 none none

def nodeC1 : HNode := .mk (some "C") 1 none none

def nodeM2 : HNode := .mk none 2 (some nodeC1) (some nodeB1)

def rootC4 : HNode := .mk none 4 (some nodeA2) (some nodeM2)

/-- Stepwise evaluation of the heap construction on the table
`{"A": 2, "B": 1, "C": 1}`. -/
theorem build_tree_C4 :
    build_tree_from_frequency [("A", (2 : Int)), ("B", 1), ("C", 1)] = some rootC4 := by
  have s0 : siftupLoop [nodeA2, nodeB1, nodeC1] 0 0 =
      siftupLoop [nodeC1, nodeB1, nodeA2] 0 2 := by
    rw [siftupLoop]
    rfl
  have s1 : siftupLoop [nodeC1, nodeB1, nodeA2] 0 2 =
      siftdown [nodeC1, nodeB1, nodeA2] 0 2 := by
    rw [siftupLoop]
    rfl
  have s2 : siftdown [nodeC1, nodeB1, nodeA2] 0 2 = [nodeC1, nodeB1, nodeA2] := by
    rw [siftdown]
    rfl
  have hheap : heapify (initNodes [("A", (2 : Int)), ("B", 1), ("C", 1)]) =
      [nodeC1, nodeB1, nodeA2] := by
    rw [show heapify (initNodes [("A", (2 : Int)), ("B", 1), ("C", 1)]) =
      siftupLoop [nodeA2, nodeB1, nodeC1] 0 0 from rfl]
    rw [s0, s1, s2]
  have s3 : siftupLoop [nodeA2, nodeB1] 0 0 = siftupLoop [nodeB1, nodeA2] 0 1 := by
    rw [siftupLoop]
    rfl
  have s4 : siftupLoop [nodeB1, nodeA2] 0 1 = siftdown [nodeB1, nodeA2] 0 1 := by
    rw [siftupLoop]
    rfl
  have s5 : siftdown [nodeB1, nodeA2] 0 1 = [nodeB1, nodeA2] := by
    rw [siftdown]
    rfl
  have hpop1 : heappop [nodeC1, nodeB1, nodeA2] = some (nodeC1, [nodeB1, nodeA2]) := by
    rw [show heappop [nodeC1, nodeB1, nodeA2] =
      some (nodeC1, siftupLoop [nodeA2, nodeB1] 0 0) from rfl]
    rw [s3, s4, s5]
  have s6 : siftupLoop [nodeA2] 0 0 = siftdown [nodeA2] 0 0 := by
    rw [siftupLoop]
    rfl
  have s7 : siftdown [nodeA2] 0 0 = [nodeA2] := by
    rw [siftdown]
    rfl
  have hpop2 : heappop [nodeB1, nodeA2] = some (nodeB1, [nodeA2]) := by
    rw [show heappop [nodeB1, nodeA2] = some (nodeB1, siftupLoop [nodeA2] 0 0) from rfl]
    rw [s6, s7]
  have s8 : siftdown [nodeA2, nodeM2] 0 1 = [nodeA2, nodeM2] := by
    rw [siftdown]
    rfl
  have hpush1 : heappush [nodeA2] nodeM2 = [nodeA2, nodeM2] := by
    rw [show heappush [nodeA2] nodeM2 = siftdown [nodeA2, nodeM2] 0 1 from rfl]
    rw [s8]
  have hloop1 : treeLoop [nodeC1, nodeB1, nodeA2] = treeLoop [nodeA2, nodeM2] := by
    rw [treeLoop_eq_merge (by decide) hpop1 hpop2]
    rw [show (HNode.mk none (nodeC1.freq + nodeB1.freq) (some nodeC1) (some nodeB1)) =
      nodeM2 from rfl]
    rw [hpush1]
  have s9 : siftupLoop [nodeM2] 0 0 = siftdown [nodeM2] 0 0 := by
    rw [siftupLoop]
    rfl
  have s10 : siftdown [nodeM2] 0 0 = [nodeM2] := by
    rw [siftdown]
    rfl
  have hpop3 : heappop [nodeA2, nodeM2] = some (nodeA2, [nodeM2]) := by
    rw [show heappop [nodeA2, nodeM2] = some (nodeA2, siftupLoop [nodeM2] 0 0) from rfl]
    rw [s9, s10]
  have hpop4 : heappop [nodeM2] = some (nodeM2, []) := rfl
  have s11 : siftdown [rootC4] 0 0 = [rootC4] := by
    rw [siftdown]
    rfl
  have hpush2 : heappush [] rootC4 = [rootC4] := by
    rw [show heappush [] rootC4 = siftdown [rootC4] 0 0 from rfl]
    rw [s11]
  have hloop2 : treeLoop [nodeA2, nodeM2] = treeLoop [rootC4] := by
    rw [treeLoop_eq_merge (by decide) hpop3 hpop4]
    rw [show (HNode.mk none (nodeA2.freq + nodeM2.freq) (some nodeA2) (some nodeM2)) =
      rootC4 from rfl]
    rw [hpush2]
  have hloop3 : treeLoop [rootC4] = [rootC4] := treeLoop_eq_base (by decide)
  rw [build_tree_from_frequency, if_neg (by decide)]
  show (match treeLoop (heapify (initNodes [("A", (2 : Int)), ("B", 1), ("C", 1)])) with
    | [] => some (HNode.mk none 0 none none)
    | r :: _ => some r) = some rootC4
  rw [hheap, hloop1, hloop2, hloop3]

/-- C4 witness: a dangling bit after the code of "A" on the three-leaf tree
for `{"A": 2, "B": 1, "C": 1}`, and an artifact with the empty table and one
body byte. -/
theorem truncated_stream_partial_output_witness :
    treeWalk rootC4 ([("A", ['0'])].flatMap Prod.snd ++ ['1']) rootC4 [] = some ["A"] ∧
    decompress_from_file [123, 125, 10, 48, 10, 7] = some "" := by
  have hwf : WF rootC4 :=
    WF.node 4 _ _ (WF.leaf "A" 2) (WF.node 2 _ _ (WF.leaf "C" 1) (WF.leaf "B" 1))
  have hcl : codesListC rootC4 = [("A", ['0']), ("C", ['1', '0']), ("B", ['1', '1'])] := by
    simp [rootC4, nodeA2, nodeM2, nodeC1, nodeB1, codesListC_node]
  constructor
  · refine (truncated_stream_partial_output).1 rootC4 hwf rfl [("A", ['0'])] ?_
      "B" ['1', '1'] ['1'] ?_ ?_ ?_
    · intro e he
      rw [hcl]
      simp at he
      rw [he]
      decide
    · rw [hcl]
      decide
    · decide
    · decide
  · exact (truncated_stream_partial_output).2 [123, 125, 10, 48, 10, 7] 0
      (by decide) (by decide)

/-- The bytes of the artifact whose header is the serialized table
`{"A": 2, "B": 1, "C": 1}` and padding line `3`, followed by the single body
byte `0b00101000`: after removing the padding the bits are `00101` — codes
for "A", "A", "C" and then a dangling `1` that ends mid-traversal. -/
def artifactC4 : List Nat :=
  jsonDumps [("A", (2 : Int)), ("B", 1), ("C", 1)] ++ [10, 51, 10, 40]

/-- C4 counterexample: decompressing the truncated artifact succeeds with
the partially decoded prefix "AAC" (the table promises four symbols), rather
than failing with a truncation error. -/
theorem truncated_stream_counterexample :
    decompress_from_file artifactC4 = some "AAC" := by
  have hr1 : readline artifactC4 =
      (jsonDumps [("A", (2 : Int)), ("B", 1), ("C", 1)] ++ [10], [51, 10, 40]) :=
    readline_append _ _ (jsonDumps_no_newline _)
  have h1 : (readline artifactC4).1 =
      jsonDumps [("A", (2 : Int)), ("B", 1), ("C", 1)] ++ [10] := by
    rw [hr1]
  have h2 : (readline artifactC4).2 = [51, 10, 40] := by
    rw [hr1]
  simp only [decompress_from_file]
  rw [h1, h2, bstrip_jsonDumps,
    jsonLoads_jsonDumps [("A", (2 : Int)), ("B", 1), ("C", 1)] (by decide)]
  rw [show bstrip (readline [51, 10, 40]).1 = [51] from rfl]
  rw [show parseIntBytes [51] = some (3 : Int) from by decide]
  simp only []
  rw [build_tree_C4]
  simp only []
  rw [show (readline [51, 10, 40]).2 = [40] from rfl]
  rfl

end Huff
